import Mathlib

/-!
Verification of the py-genl generic-netlink attribute codec
(src/genl/netlink.py and src/genl/nlattr.py), shallowly embedded.

Byte buffers are modelled as `List Nat` whose entries lie below 256.
The host is taken to be little-endian, which fixes the meaning of the
host-order (`@` / `=`) struct formats used throughout the source.
Python exceptions are modelled by `Option`: `none` is a raised error.
-/

namespace Genl

/-- Model of `align` from src/genl/netlink.py:
`(size + 0x03) & (((1 << 64) - 1) - 3)`.  The mask keeps bits 2..63 of
`size + 3`, i.e. reduces modulo `2^64` and clears the two low bits. -/
def align (size : Nat) : Nat :=
  ((size + 3) % (2 ^ 64)) / 4 * 4

/-- Model of `pad` from src/genl/netlink.py: append zero bytes up to the
next 4-byte boundary. -/
def pad (data : List Nat) : List Nat :=
  data ++ List.replicate (align data.length - data.length) 0

/-- Model of `struct.pack("@H", n)` on a little-endian host: two bytes,
low byte first, or an error when the value does not fit 16 bits
(Python 3 `struct` range-checks its arguments). -/
def packU16 (n : Nat) : Option (List Nat) :=
  if n < 65536 then some [n % 256, n / 256] else none

/-- Read a host-order (little-endian) unsigned short from two bytes.
Genuine byte buffers have entries below 256, on which the reductions
mod 256 are the identity; they merely keep the reader total. -/
def readU16 (a b : Nat) : Nat := a % 256 + 256 * (b % 256)

theorem readU16_lt (a b : Nat) : readU16 a b < 65536 := by
  unfold readU16; omega

theorem align_ge_four {n : Nat} (h1 : 1 ≤ n) (h2 : n < 65536) : 4 ≤ align n := by
  unfold align; omega

/-- Model of the namedtuple `GNLAttribute(length, atype, data)` from
src/genl/netlink.py. -/
structure GNLAttribute where
  length : Nat
  atype : Nat
  adata : List Nat
deriving Repr, DecidableEq

/-- Model of `parse_generic_attributes` from src/genl/netlink.py.
At each offset it unpacks the 4-byte `@HH` header (a `struct.error`,
hence a raised error, if fewer than 4 bytes remain), takes the payload
slice `data[index+4 : index+nla_len]` (Python slices truncate silently),
advances by `align(nla_len)` and fails on `assert nla_len` when the
length field is zero. -/
def parse_generic_attributes : List Nat → Option (List GNLAttribute)
  | [] => some []
  | b0 :: b1 :: b2 :: b3 :: rest =>
    if h0 : readU16 b0 b1 = 0 then none
    else
      (parse_generic_attributes ((b0 :: b1 :: b2 :: b3 :: rest).drop (align (readU16 b0 b1)))).map
        (fun attrs => ⟨readU16 b0 b1, readU16 b2 b3, rest.take (readU16 b0 b1 - 4)⟩ :: attrs)
  | _ => none
termination_by data => data.length
decreasing_by
  simp only [List.length_drop, List.length_cons]
  have h1 : readU16 b0 b1 < 65536 := readU16_lt b0 b1
  have h2 : 4 ≤ align (readU16 b0 b1) := align_ge_four (by omega) h1
  omega

/-- Integer attribute kinds of `int_type_to_fmt` in src/genl/nlattr.py. -/
inductive IntKind where
  | u8 | u16 | s16 | u32 | u64
deriving Repr, DecidableEq

/-- Size in bytes of each kind's struct format (`=B`, `=H`, `=h`, `=I`, `=Q`). -/
def IntKind.size : IntKind → Nat
  | .u8 => 1 | .u16 => 2 | .s16 => 2 | .u32 => 4 | .u64 => 8

/-- Least value accepted by `struct.pack` for each kind's format. -/
def IntKind.lo : IntKind → Int
  | .u8 => 0
  | .u16 => 0
  | .s16 => -32768
  | .u32 => 0
  | .u64 => 0

/-- Greatest value accepted by `struct.pack` for each kind's format. -/
def IntKind.hi : IntKind → Int
  | .u8 => 255
  | .u16 => 65535
  | .s16 => 32767
  | .u32 => 4294967295
  | .u64 => 18446744073709551615

/-- Little-endian byte encoding of `n` at a width of `w` bytes. -/
def leBytes : Nat → Nat → List Nat
  | 0, _ => []
  | w + 1, n => n % 256 :: leBytes w (n / 256)

/-- Little-endian read-back of a byte list. -/
def fromLE : List Nat → Nat
  | [] => 0
  | b :: bs => b + 256 * fromLE bs

/-- Model of `NlAttrSchemaInt.build`: `struct.pack(self.fmt, val)`.
Python 3 `struct` raises on out-of-range values; in range, the value is
packed two's-complement little-endian at the declared width. -/
def intBuild (k : IntKind) (v : Int) : Option (List Nat) :=
  if k.lo ≤ v ∧ v ≤ k.hi then
    some (leBytes k.size ((v % (2 ^ (8 * k.size))).toNat))
  else none

/-- Model of `NlAttrSchemaInt.parse`: `struct.unpack(self.fmt, data)[0]`,
an error unless the buffer has exactly the format's size. -/
def intParse (k : IntKind) (data : List Nat) : Option Int :=
  if data.length = k.size then
    some (if k = .s16 ∧ 32768 ≤ fromLE data
          then (fromLE data : Int) - 65536 else (fromLE data : Int))
  else none

/-- Continuation-byte test for UTF-8 decoding. -/
def utf8Cont (b : Nat) : Bool := 128 ≤ b && b < 192

/-- One step of strict UTF-8 decoding as in CPython's `bytes.decode()`:
from a lead byte and the remaining bytes, the decoded character and the
rest of the input (rejecting truncated sequences, overlong forms,
surrogates and code points above U+10FFFF). -/
def pyDecodeStep (b : Nat) (rest : List Nat) : Option (Char × List Nat) :=
  if b < 128 then some (Char.ofNat b, rest)
  else if 194 ≤ b && b ≤ 223 then
    match rest with
    | b2 :: r =>
      if utf8Cont b2 then some (Char.ofNat ((b - 192) * 64 + (b2 - 128)), r) else none
    | [] => none
  else if 224 ≤ b && b ≤ 239 then
    match rest with
    | b2 :: b3 :: r =>
      if (if b = 224 then decide (160 ≤ b2 ∧ b2 ≤ 191)
          else if b = 237 then decide (128 ≤ b2 ∧ b2 ≤ 159)
          else utf8Cont b2) && utf8Cont b3 then
        some (Char.ofNat ((b - 224) * 4096 + (b2 - 128) * 64 + (b3 - 128)), r)
      else none
    | _ => none
  else if 240 ≤ b && b ≤ 244 then
    match rest with
    | b2 :: b3 :: b4 :: r =>
      if (if b = 240 then decide (144 ≤ b2 ∧ b2 ≤ 191)
          else if b = 244 then decide (128 ≤ b2 ∧ b2 ≤ 143)
          else utf8Cont b2) && utf8Cont b3 && utf8Cont b4 then
        some (Char.ofNat ((b - 240) * 262144 + (b2 - 128) * 4096 + (b3 - 128) * 64 + (b4 - 128)), r)
      else none
    | _ => none
  else none

set_option maxRecDepth 4096 in
theorem pyDecodeStep_length {b : Nat} {rest : List Nat} {c : Char} {r : List Nat}
    (h : pyDecodeStep b rest = some (c, r)) : r.length ≤ rest.length := by
  unfold pyDecodeStep at h
  repeat' split at h
  all_goals (cases h <;> simp_arith)

/-- Model of `bytes.decode()`: strict UTF-8 decoding of the whole
buffer. -/
def pyDecode : List Nat → Option (List Char)
  | [] => some []
  | b :: rest =>
    match hs : pyDecodeStep b rest with
    | none => none
    | some (c, r) => (pyDecode r).map (fun cs => c :: cs)
termination_by l => l.length
decreasing_by
  have := pyDecodeStep_length hs
  simp only [List.length_cons]
  omega

/-- Model of `NlAttrSchemaStr.build`: `val.encode("ascii") + b'\0'`;
encoding raises on non-ASCII characters. -/
def strBuild (s : String) : Option (List Nat) :=
  if s.data.all (fun c => c.toNat < 128) then
    some (s.data.map Char.toNat ++ [0])
  else none

/-- Model of `NlAttrSchemaStr.parse`: decode, then index `s[-1]` (an
IndexError on the empty string) and strip one trailing NUL. -/
def strParse (data : List Nat) : Option String :=
  match pyDecode data with
  | none => none
  | some cs =>
    match cs.getLast? with
    | none => none
    | some c => some (String.mk (if c = Char.ofNat 0 then cs.dropLast else cs))

mutual
/-- Compiled codec tree: the objects produced by `NlAttrSchema.from_spec`
and the `schema_class`-registered leaf classes in src/genl/nlattr.py.
A `set` node carries, exactly as the class `NlAttrSchema` does, the
ordered map of child schemata, the name-to-id table (`ids.items()`), the
required names and the python-name map.  The `flag` kind is modelled
from the spec: the repository's tests exercise a flag codec that is
missing from src/genl/nlattr.py. -/
inductive Schema where
  | int : IntKind → Schema
  | str : Schema
  | bytes : Schema
  | flag : Schema
  | array : Schema → Schema
  | nlist : Schema → Schema
  | set : Fields → List (String × Nat) → List String → List (String × String) → Schema

/-- Ordered map from child attribute name to child schema (the
`subattr_schemata` OrderedDict of `NlAttrSchema`). -/
inductive Fields where
  | nil : Fields
  | cons : String → Schema → Fields → Fields
end

mutual
/-- Python values handled by the codec: integers, strings, byte blobs,
booleans, `None`, lists, and (ordered) dicts. -/
inductive Value where
  | vint : Int → Value
  | vstr : String → Value
  | vbytes : List Nat → Value
  | vbool : Bool → Value
  | vnone : Value
  | vlist : VList → Value
  | vmap : VMap → Value

/-- A Python list of values. -/
inductive VList where
  | nil : VList
  | cons : Value → VList → VList

/-- A Python (insertion-ordered) dict from attribute name to value. -/
inductive VMap where
  | nil : VMap
  | cons : String → Value → VMap → VMap
end

def Fields.lookup : Fields → String → Option Schema
  | .nil, _ => none
  | .cons n s rest, k => if n = k then some s else Fields.lookup rest k

def Fields.names : Fields → List String
  | .nil => []
  | .cons n _ rest => n :: Fields.names rest

def VMap.lookup : VMap → String → Option Value
  | .nil, _ => none
  | .cons n v rest, k => if n = k then some v else VMap.lookup rest k

def VMap.keys : VMap → List String
  | .nil => []
  | .cons n _ rest => n :: VMap.keys rest

/-- Python dict assignment `d[k] = v`: overwrite in place, keeping the
key's original position, or append a fresh key at the end. -/
def VMap.pyInsert : VMap → String → Value → VMap
  | .nil, k, v => .cons k v .nil
  | .cons k0 v0 rest, k, v =>
    if k0 = k then .cons k0 v rest else .cons k0 v0 (VMap.pyInsert rest k v)

def VList.ofList : List Value → VList
  | [] => .nil
  | v :: rest => .cons v (VList.ofList rest)

def VList.toList : VList → List Value
  | .nil => []
  | .cons v rest => v :: VList.toList rest

/-- Python truthiness of the values the codec may see. -/
def truthy : Value → Bool
  | .vint v => decide (v ≠ 0)
  | .vstr s => !s.isEmpty
  | .vbytes bs => !bs.isEmpty
  | .vbool b => b
  | .vnone => false
  | .vlist .nil => false
  | .vlist (.cons _ _) => true
  | .vmap .nil => false
  | .vmap (.cons _ _ _) => true

def truthyVMap : VMap → Bool
  | .nil => false
  | .cons _ _ _ => true

/-- Lookup in the name-to-id table (a Python dict, so keys are unique;
the list models its `items()`). -/
def idsLookup (ids : List (String × Nat)) (n : String) : Option Nat :=
  (ids.find? (fun p => p.1 == n)).map (fun p => p.2)

/-- Candidate names reported for an unknown id:
`[n for n, i in self.ids.items() if i == atype]`. -/
def candidates (ids : List (String × Nat)) (t : Nat) : List String :=
  (ids.filter (fun p => p.2 == t)).map (fun p => p.1)

/-- Model of the matching loop in `NlAttrSchema.parse`: find the first
child whose declared id equals the TLV type field.  The outer `none`
models the `KeyError` raised when `self.ids[attr_name]` is evaluated for
a child name absent from the table before a match is found. -/
def findChild : Fields → List (String × Nat) → Nat → Option (Option (String × Schema))
  | .nil, _, _ => some none
  | .cons n s rest, ids, t =>
    match idsLookup ids n with
    | none => none
    | some i => if i = t then some (some (n, s)) else findChild rest ids t

/-- Python `getattr(schema, "size", ...)`: only the integer codec class
exposes a fixed element size (checked by `NlAttrSchemaArray.__init__`). -/
def subSize : Schema → Option Nat
  | .int k => some k.size
  | _ => none

/-- Python list item assignment `ret[i] = v`, with negative-index
wrapping; an out-of-range index raises IndexError. -/
def pyListSet (l : List Value) (i : Int) (v : Value) : Option (List Value) :=
  if i < 0 then
    if 0 ≤ i + l.length then some (l.set (i + l.length).toNat v) else none
  else
    if i < l.length then some (l.set i.toNat v) else none

/-- The assignment loop of `NlAttrSchemaList.parse`:
`ret[attr.atype - 1] = ...` over the parsed elements in wire order. -/
def listFill : List Value → List (Nat × Value) → Option (List Value)
  | l, [] => some l
  | l, (t, v) :: rest =>
    Option.bind (pyListSet l ((t : Int) - 1) v) fun l2 =>
    listFill l2 rest

/-- Modelled from the spec: after the parse walk, a flag child that was
absent on the wire reads as false in the value tree (spec: parse of the
empty buffer yields a value tree in which the flag is false).  The flag
class is missing from src/genl/nlattr.py though exercised by the
repository's tests. -/
def addFlagDefaults : Fields → VMap → VMap
  | .nil, m => m
  | .cons n s rest, m =>
    match s with
    | .flag =>
      if (VMap.lookup m n).isSome then addFlagDefaults rest m
      else addFlagDefaults rest (VMap.pyInsert m n (.vbool false))
    | _ => addFlagDefaults rest m

/-- Nodup check on key lists (Python dicts cannot repeat keys). -/
def listNodup : List String → Bool
  | [] => true
  | x :: xs => !(xs.contains x) && listNodup xs

/-- Scope-uniqueness of ids among the given names (the spec's data
model: identifiers are unique within an attribute-set scope). -/
def idsInj (ids : List (String × Nat)) : List String → Bool
  | [] => true
  | n :: ns => ns.all (fun n2 => idsLookup ids n != idsLookup ids n2) && idsInj ids ns

mutual
/-- Wellformedness of a codec compiled by the source: kinds the source's
`get_schema_class` accepts (no flag), arrays only over fixed-size
(integer) subelems as `NlAttrSchemaArray.__init__` enforces, and for a
set scope the spec's schema validity: unique child names, every child
name present in the id table, ids unique within the scope. -/
def wfSchema : Schema → Bool
  | .int _ => true
  | .str => true
  | .bytes => true
  | .flag => false
  | .array sub => (match sub with | .int _ => true | _ => false)
  | .nlist sub => wfSchema sub
  | .set children ids _ _ =>
    wfFields children
    && listNodup (Fields.names children)
    && (Fields.names children).all (fun n => (idsLookup ids n).isSome)
    && idsInj ids (Fields.names children)

/-- Wellformedness of every child schema of a scope. -/
def wfFields : Fields → Bool
  | .nil => true
  | .cons _ s rest => wfSchema s && wfFields rest
end

mutual
/-- A value is a faithful Python value tree: byte blobs hold bytes and
dict keys are unique (recursively). -/
def vwf : Value → Bool
  | .vint _ => true
  | .vstr _ => true
  | .vbytes bs => bs.all (fun b => b < 256)
  | .vbool _ => true
  | .vnone => true
  | .vlist l => vwfList l
  | .vmap m => vwfMap m && listNodup (VMap.keys m)

/-- Pointwise wellformedness of a list of values. -/
def vwfList : VList → Bool
  | .nil => true
  | .cons v rest => vwf v && vwfList rest

/-- Pointwise wellformedness of the values of a dict. -/
def vwfMap : VMap → Bool
  | .nil => true
  | .cons _ v rest => vwf v && vwfMap rest
end

theorem Fields.lookup_sizeOf : ∀ (fs : Fields) (k : String) (s : Schema),
    Fields.lookup fs k = some s → sizeOf s < sizeOf fs
  | .nil, k, s => by simp [Fields.lookup]
  | .cons n0 s0 rest, k, s => by
    simp only [Fields.lookup]
    split
    · intro h
      cases h
      simp
      omega
    · intro h
      have := Fields.lookup_sizeOf rest k s h
      simp
      omega

theorem findChild_sizeOf : ∀ (fs : Fields) (ids : List (String × Nat)) (t : Nat)
    (n : String) (s : Schema), findChild fs ids t = some (some (n, s)) → sizeOf s < sizeOf fs
  | .nil, ids, t, n, s => by simp [findChild]
  | .cons n0 s0 rest, ids, t, n, s => by
    simp only [findChild]
    match idsLookup ids n0 with
    | none => simp
    | some i =>
      simp only
      split
      · intro h
        cases h
        simp
        omega
      · intro h
        have := findChild_sizeOf rest ids t n s h
        simp
        omega

mutual
/-- Dispatch of child building: the `.build(val)` call on each codec
class of src/genl/nlattr.py, restricted to the value shapes of the
spec's data model (Python duck-typing would accept a few further
shapes, e.g. booleans where integers are expected).  The flag case is
modelled from the spec (the class is missing from src/genl/nlattr.py). -/
def buildAttr : Schema → Value → Option (List Nat)
  | .int k, .vint v => intBuild k v
  | .str, .vstr s => strBuild s
  | .bytes, .vbytes bs => some bs
  | .flag, .vbool _ => some []
  | .array sub, .vlist l => arrayBuildLoop sub l
  | .nlist sub, .vlist l => listBuildLoop sub 1 l
  | .set children ids required _, .vmap m =>
    if truthyVMap m then setBuildCore children ids required m else none
  | _, _ => none
termination_by s _ => (sizeOf s, 0)

/-- Model of `NlAttrSchemaArray.build`: concatenation of the built
subelements, with no per-element headers. -/
def arrayBuildLoop : Schema → VList → Option (List Nat)
  | _, .nil => some []
  | sub, .cons v rest =>
    Option.bind (buildAttr sub v) fun p =>
    Option.bind (arrayBuildLoop sub rest) fun q =>
    some (p ++ q)
termination_by sub l => (sizeOf sub, sizeOf l + 1)

/-- Model of `NlAttrSchemaList.build`: one padded TLV per element with
synthetic ids `i + 1` in enumeration order. -/
def listBuildLoop : Schema → Nat → VList → Option (List Nat)
  | _, _, .nil => some []
  | sub, i, .cons v rest =>
    Option.bind (buildAttr sub v) fun p =>
    Option.bind (packU16 (4 + p.length)) fun h1 =>
    Option.bind (packU16 i) fun h2 =>
    Option.bind (listBuildLoop sub (i + 1) rest) fun q =>
    some (pad (h1 ++ h2 ++ p) ++ q)
termination_by sub _ l => (sizeOf sub, sizeOf l + 1)

/-- Model of the body of `NlAttrSchema.build` once the input form is
resolved: the unknown-name check, the missing-required check, then the
TLV emission loop. -/
def setBuildCore (children : Fields) (ids : List (String × Nat))
    (required : List String) (m : VMap) : Option (List Nat) :=
  if (VMap.keys m).all (fun k => (Fields.lookup children k).isSome) then
    if required.all (fun r => (VMap.keys m).contains r) then
      setBuildLoop children ids m
    else none
  else none
termination_by (sizeOf children, sizeOf m + 2)

/-- The TLV emission loop of `NlAttrSchema.build`, in the input
mapping's iteration order: build the child payload, pack the `@HH`
header with `length = 4 + len(payload)` and the child's id, pad to a
4-byte boundary, and concatenate.  The flag special case (emit a
headers-only TLV when truthy, omit the TLV entirely otherwise) is
modelled from the spec. -/
def setBuildLoop (children : Fields) (ids : List (String × Nat)) : VMap → Option (List Nat)
  | .nil => some []
  | .cons name val rest =>
    match hf : Fields.lookup children name with
    | none => none
    | some child =>
      match child with
      | .flag =>
        if truthy val then
          Option.bind (idsLookup ids name) fun attrId =>
          Option.bind (packU16 4) fun h1 =>
          Option.bind (packU16 attrId) fun h2 =>
          Option.bind (setBuildLoop children ids rest) fun q =>
          some (pad (h1 ++ h2) ++ q)
        else setBuildLoop children ids rest
      | _ =>
        Option.bind (buildAttr child val) fun p =>
        Option.bind (idsLookup ids name) fun attrId =>
        Option.bind (packU16 (4 + p.length)) fun h1 =>
        Option.bind (packU16 attrId) fun h2 =>
        Option.bind (setBuildLoop children ids rest) fun q =>
        some (pad (h1 ++ h2 ++ p) ++ q)
termination_by m => (sizeOf children, sizeOf m + 1)
decreasing_by
  all_goals first
    | decreasing_tactic
    | (simp_wf
       apply Prod.Lex.left
       exact Fields.lookup_sizeOf _ _ _ (by assumption))
end

/-- Warnings emitted by parsing: the unknown type id and the candidate
names from the id table. -/
abbrev Warn := Nat × List String

/-- Chunking of an array payload into `k`-byte slices
(`data[:elem_size]` / `data[elem_size:]` of `NlAttrSchemaArray.parse`);
the subelement sizes are 1, 2, 4 or 8, so `k = 0` cannot occur (Python
would fail to terminate there). -/
def dataChunks (k : Nat) : List Nat → List (List Nat)
  | [] => []
  | b :: rest =>
    if h0 : k = 0 then []
    else (b :: rest).take k :: dataChunks k ((b :: rest).drop k)
termination_by data => data.length
decreasing_by simp only [List.length_drop, List.length_cons]; omega

mutual
/-- Dispatch of child parsing: the `.parse(data)` call on each codec
class of src/genl/nlattr.py, paired with the warnings emitted (in
order).  The flag case (any payload parses to true) is modelled from
the spec. -/
def parseAttr : Schema → List Nat → Option (Value × List Warn)
  | .int k, data => (intParse k data).map (fun v => (.vint v, []))
  | .str, data => (strParse data).map (fun s => (.vstr s, []))
  | .bytes, data => some (.vbytes data, [])
  | .flag, _ => some (.vbool true, [])
  | .array sub, data =>
    match subSize sub with
    | none => none
    | some k =>
      (arrayParseSeq sub (dataChunks k data)).map (fun r => (.vlist (VList.ofList r.1), r.2))
  | .nlist sub, data =>
    Option.bind (parse_generic_attributes data) fun attrs =>
    match attrs with
    | [] => some (.vlist .nil, [])
    | _ :: _ =>
      Option.bind (listParseLoop sub attrs) fun r =>
      Option.bind (listFill (List.replicate ((attrs.map (fun a => a.atype)).foldl max 0)
        Value.vnone) r.1) fun l =>
      some (.vlist (VList.ofList l), r.2)
  | .set children ids required _, data =>
    Option.bind (parse_generic_attributes data) fun attrs =>
    Option.bind (setWalk children ids .nil attrs) fun r =>
    if required.all (fun req => (VMap.lookup r.1 req).isSome) then
      some (.vmap (addFlagDefaults children r.1), r.2)
    else none
termination_by s _ => (sizeOf s, 0)

/-- The chunk-parsing loop of `NlAttrSchemaArray.parse`. -/
def arrayParseSeq : Schema → List (List Nat) → Option (List Value × List Warn)
  | _, [] => some ([], [])
  | sub, c :: rest =>
    Option.bind (parseAttr sub c) fun r1 =>
    Option.bind (arrayParseSeq sub rest) fun r2 =>
    some (r1.1 :: r2.1, r1.2 ++ r2.2)
termination_by sub cs => (sizeOf sub, cs.length + 1)

/-- The element-parsing loop of `NlAttrSchemaList.parse`, keeping each
element's wire type id for the positional fill. -/
def listParseLoop : Schema → List GNLAttribute → Option (List (Nat × Value) × List Warn)
  | _, [] => some ([], [])
  | sub, attr :: rest =>
    Option.bind (parseAttr sub attr.adata) fun r1 =>
    Option.bind (listParseLoop sub rest) fun r2 =>
    some ((attr.atype, r1.1) :: r2.1, r1.2 ++ r2.2)
termination_by sub attrs => (sizeOf sub, attrs.length + 1)

/-- The attribute walk of `NlAttrSchema.parse`: for each TLV find the
child with the matching id; unknown ids are warned about (with the
candidate names from the id table) and skipped; recognized payloads are
parsed by the child codec (any error is fatal) and inserted into the
running dict. -/
def setWalk (children : Fields) (ids : List (String × Nat)) (acc : VMap) :
    List GNLAttribute → Option (VMap × List Warn)
  | [] => some (acc, [])
  | attr :: rest =>
    match hc : findChild children ids attr.atype with
    | none => none
    | some none =>
      (setWalk children ids acc rest).map
        (fun r => (r.1, (attr.atype, candidates ids attr.atype) :: r.2))
    | some (some (name, child)) =>
      Option.bind (parseAttr child attr.adata) fun r1 =>
      Option.bind (setWalk children ids (acc.pyInsert name r1.1) rest) fun r2 =>
      some (r2.1, r1.2 ++ r2.2)
termination_by attrs => (sizeOf children, attrs.length + 1)
decreasing_by
  all_goals first
    | decreasing_tactic
    | (simp_wf
       apply Prod.Lex.left
       exact findChild_sizeOf _ _ _ _ _ (by assumption))
end

/-- Truthiness of the optional `_attr_values` argument: `bool(None)` is
false, a dict is truthy iff non-empty. -/
def truthyOpt : Option VMap → Bool
  | none => false
  | some m => truthyVMap m

/-- Model of the compiled attribute-set codec class `NlAttrSchema`
(the fields set up by its `__init__`). -/
structure NlAttrSchema where
  subattr_schemata : Fields
  ids : List (String × Nat)
  required_attrs : List String
  name_mapping : List (String × String)

/-- The codec-tree node corresponding to an `NlAttrSchema` instance. -/
def NlAttrSchema.toSchema (S : NlAttrSchema) : Schema :=
  .set S.subattr_schemata S.ids S.required_attrs S.name_mapping

/-- Lookup in the python-name map (a Python dict with unique keys). -/
def nmLookup (nm : List (String × String)) (k : String) : Option String :=
  (nm.find? (fun p => p.1 == k)).map (fun p => p.2)

/-- The kwargs translation of `NlAttrSchema.build`:
`{self.name_mapping[k]: v for k, v in kwargs.items()}`. -/
def kwargsTranslate (nm : List (String × String)) : VMap → VMap → VMap
  | acc, .nil => acc
  | acc, .cons k v rest => kwargsTranslate nm (acc.pyInsert ((nmLookup nm k).getD k) v) rest

/-- Model of `NlAttrSchema.build`: exactly one of the positional
`_attr_values` mapping and the short-name kwargs must be truthy
(`bool(_attr_values) == bool(kwargs)` is rejected); kwargs keys are
translated through `name_mapping`, an unknown kwarg being an error;
then the common body `setBuildCore` runs. -/
def NlAttrSchema.build (S : NlAttrSchema) (attr_values : Option VMap) (kwargs : VMap) :
    Option (List Nat) :=
  if truthyOpt attr_values == truthyVMap kwargs then none
  else if truthyVMap kwargs then
    if (VMap.keys kwargs).all (fun k => (nmLookup S.name_mapping k).isSome) then
      setBuildCore S.subattr_schemata S.ids S.required_attrs
        (kwargsTranslate S.name_mapping .nil kwargs)
    else none
  else
    match attr_values with
    | some m => setBuildCore S.subattr_schemata S.ids S.required_attrs m
    | none => none

/-- Model of `NlAttrSchema.parse`: split the buffer, walk the TLVs,
check the required names, and return the values dict together with the
warnings (the `NlAttrSet` result also carries `name_mapping`, which is
recorded in the codec itself here). -/
def NlAttrSchema.parse (S : NlAttrSchema) (data : List Nat) : Option (VMap × List Warn) :=
  Option.bind (parse_generic_attributes data) fun attrs =>
  Option.bind (setWalk S.subattr_schemata S.ids .nil attrs) fun r =>
  if S.required_attrs.all (fun req => (VMap.lookup r.1 req).isSome) then
    some (addFlagDefaults S.subattr_schemata r.1, r.2)
  else none

/-- Character-wise longest common prefix of two strings. -/
def lcp2 : List Char → List Char → List Char
  | c :: cs, d :: ds => if c = d then c :: lcp2 cs ds else []
  | _, _ => []

/-- Model of `os.path.commonprefix` over the child names of a scope
(the empty input gives the empty string). -/
def commonPfx : List (List Char) → List Char
  | [] => []
  | s :: rest => rest.foldl lcp2 s

/-- Python `str.lower` on the ASCII identifiers used as attribute
names. -/
def pyLowerChar (c : Char) : Char :=
  if 'A' ≤ c ∧ c ≤ 'Z' then Char.ofNat (c.toNat + 32) else c

/-- Model of the derived python name in `NlAttrSchema.from_spec`: take
the common prefix of the sibling names, append an underscore when it
does not already end in one, and slice that many characters off the
child's name before lowercasing
(`field_spec["name"][len(common_prefix):].lower()`). -/
def derivedPythonName (names : List String) (name : String) : String :=
  let p := commonPfx (names.map String.data)
  let p2 := if p.getLast? = some '_' then p else p ++ ['_']
  String.mk ((name.data.drop p2.length).map pyLowerChar)

/-- Model of the name-mapping loop of `NlAttrSchema.from_spec`: each
field contributes `python_name -> name`, an explicit "python_name"
override taking precedence over the derived name. -/
def fromSpecNameMapping (fields : List (String × Option String)) : List (String × String) :=
  fields.map (fun f =>
    match f.2 with
    | some o => (o, f.1)
    | none => (derivedPythonName (fields.map (fun g => g.1)) f.1, f.1))

/-- A padded TLV chunk as laid out on the wire: the `@HH` header with
`length = 4 + len(payload)` and the type id (little-endian on this
host), then the payload, then zero padding up to the next 4-byte
boundary, which the length field does not count. -/
def mkChunk (t : Nat) (p : List Nat) : List Nat :=
  [(4 + p.length) % 256, (4 + p.length) / 256, t % 256, t / 256] ++ p
    ++ List.replicate (align (4 + p.length) - (4 + p.length)) 0

theorem align_ge {n : Nat} (h : n < 65536) : n ≤ align n := by
  unfold align; omega

theorem align_le3 {n : Nat} (h : n < 65536) : align n ≤ n + 3 := by
  unfold align; omega

theorem align_mod4 (n : Nat) : align n % 4 = 0 := by
  unfold align; omega

theorem mkChunk_length (t : Nat) (p : List Nat) (hp : 4 + p.length < 65536) :
    (mkChunk t p).length = align (4 + p.length) := by
  have h1 := align_ge hp
  simp [mkChunk]
  omega

theorem mkChunk_length_mod4 (t : Nat) (p : List Nat) (hp : 4 + p.length < 65536) :
    (mkChunk t p).length % 4 = 0 := by
  rw [mkChunk_length t p hp]; exact align_mod4 _

theorem pga_nil : parse_generic_attributes [] = some [] := by
  simp [parse_generic_attributes]

theorem readU16_reduce {n : Nat} (h : n < 65536) : readU16 (n % 256) (n / 256) = n := by
  unfold readU16; omega

/-- Splitting a wellformed padded chunk off the front of the stream. -/
theorem pga_cons (t : Nat) (p rest : List Nat) (hp : 4 + p.length < 65536) (ht : t < 65536) :
    parse_generic_attributes (mkChunk t p ++ rest) =
      (parse_generic_attributes rest).map
        (fun attrs => ⟨4 + p.length, t, p⟩ :: attrs) := by
  have hlen : (mkChunk t p).length = align (4 + p.length) := mkChunk_length t p hp
  have hshape : mkChunk t p ++ rest =
      (4 + p.length) % 256 :: (4 + p.length) / 256 :: t % 256 :: t / 256 ::
        ((p ++ List.replicate (align (4 + p.length) - (4 + p.length)) 0) ++ rest) := by
    simp [mkChunk]
  rw [hshape, parse_generic_attributes]
  rw [readU16_reduce hp, readU16_reduce ht]
  have hnz : ¬(4 + p.length = 0) := by omega
  rw [dif_neg hnz]
  have htake : ((p ++ List.replicate (align (4 + p.length) - (4 + p.length)) 0) ++ rest).take
      (4 + p.length - 4) = p := by
    rw [List.append_assoc]
    have : 4 + p.length - 4 = p.length := by omega
    rw [this, List.take_left]
  have hdrop : ((4 + p.length) % 256 :: (4 + p.length) / 256 :: t % 256 :: t / 256 ::
      ((p ++ List.replicate (align (4 + p.length) - (4 + p.length)) 0) ++ rest)).drop
        (align (4 + p.length)) = rest := by
    have h2 : (4 + p.length) % 256 :: (4 + p.length) / 256 :: t % 256 :: t / 256 ::
        ((p ++ List.replicate (align (4 + p.length) - (4 + p.length)) 0) ++ rest) =
        mkChunk t p ++ rest := hshape.symm
    rw [h2, ← hlen, List.drop_left]
  rw [htake, hdrop]

/-- Splitting an entire stream of wellformed padded chunks. -/
theorem pga_chunks : ∀ (tl : List (Nat × List Nat)),
    (∀ x ∈ tl, 4 + x.2.length < 65536 ∧ x.1 < 65536) →
    parse_generic_attributes ((tl.map (fun x => mkChunk x.1 x.2)).flatten) =
      some (tl.map (fun x => ⟨4 + x.2.length, x.1, x.2⟩))
  | [], _ => by simpa using pga_nil
  | x :: tl, h => by
    have hx := h x (by simp)
    have ih := pga_chunks tl (fun y hy => h y (by simp [hy]))
    simp only [List.map_cons, List.flatten_cons]
    rw [pga_cons x.1 x.2 _ hx.1 hx.2, ih]
    rfl

theorem leBytes_length : ∀ (w n : Nat), (leBytes w n).length = w
  | 0, _ => rfl
  | w + 1, n => by simp [leBytes, leBytes_length w]

theorem fromLE_leBytes : ∀ (w n : Nat), n < 256 ^ w → fromLE (leBytes w n) = n
  | 0, n, h => by
    norm_num at h
    subst h; rfl
  | w + 1, n, h => by
    have hlt : n / 256 < 256 ^ w := by
      rw [Nat.div_lt_iff_lt_mul (by norm_num)]
      calc n < 256 ^ (w + 1) := h
        _ = 256 ^ w * 256 := by ring
    simp [leBytes, fromLE, fromLE_leBytes w (n / 256) hlt]
    omega

theorem leBytes_bytes : ∀ (w n : Nat), ∀ b ∈ leBytes w n, b < 256
  | 0, _ => by simp [leBytes]
  | w + 1, n => by
    simp only [leBytes, List.mem_cons]
    rintro b (rfl | hb)
    · omega
    · exact leBytes_bytes w (n / 256) b hb

theorem intBuild_parse {k : IntKind} {v : Int} {p : List Nat} (h : intBuild k v = some p) :
    intParse k p = some v ∧ p.length = k.size ∧ ∀ b ∈ p, b < 256 := by
  cases k
  case u8 =>
    unfold intBuild at h
    rw [show IntKind.u8.lo = 0 from rfl, show IntKind.u8.hi = 255 from rfl,
        show IntKind.u8.size = 1 from rfl, show ((2:Int) ^ (8 * 1)) = 256 by norm_num] at h
    split at h
    case isFalse => exact absurd h (by simp)
    case isTrue hr =>
      have hp : p = leBytes 1 ((v % 256).toNat) := by cases h; rfl
      have hlt : (v % 256).toNat < 256 ^ 1 := by norm_num; omega
      have hfrom : fromLE p = (v % 256).toNat := by rw [hp, fromLE_leBytes _ _ hlt]
      have hlen : p.length = 1 := by rw [hp, leBytes_length]
      refine ⟨?_, hlen, by rw [hp]; exact leBytes_bytes _ _⟩
      unfold intParse
      rw [show IntKind.u8.size = 1 from rfl, if_pos hlen, hfrom, if_neg (by simp)]
      simp only [Option.some.injEq]
      omega
  case u16 =>
    unfold intBuild at h
    rw [show IntKind.u16.lo = 0 from rfl, show IntKind.u16.hi = 65535 from rfl,
        show IntKind.u16.size = 2 from rfl, show ((2:Int) ^ (8 * 2)) = 65536 by norm_num] at h
    split at h
    case isFalse => exact absurd h (by simp)
    case isTrue hr =>
      have hp : p = leBytes 2 ((v % 65536).toNat) := by cases h; rfl
      have hlt : (v % 65536).toNat < 256 ^ 2 := by norm_num; omega
      have hfrom : fromLE p = (v % 65536).toNat := by rw [hp, fromLE_leBytes _ _ hlt]
      have hlen : p.length = 2 := by rw [hp, leBytes_length]
      refine ⟨?_, hlen, by rw [hp]; exact leBytes_bytes _ _⟩
      unfold intParse
      rw [show IntKind.u16.size = 2 from rfl, if_pos hlen, hfrom, if_neg (by simp)]
      simp only [Option.some.injEq]
      omega
  case s16 =>
    unfold intBuild at h
    rw [show IntKind.s16.lo = -32768 from rfl, show IntKind.s16.hi = 32767 from rfl,
        show IntKind.s16.size = 2 from rfl, show ((2:Int) ^ (8 * 2)) = 65536 by norm_num] at h
    split at h
    case isFalse => exact absurd h (by simp)
    case isTrue hr =>
      have hp : p = leBytes 2 ((v % 65536).toNat) := by cases h; rfl
      have hlt : (v % 65536).toNat < 256 ^ 2 := by norm_num; omega
      have hfrom : fromLE p = (v % 65536).toNat := by rw [hp, fromLE_leBytes _ _ hlt]
      have hlen : p.length = 2 := by rw [hp, leBytes_length]
      refine ⟨?_, hlen, by rw [hp]; exact leBytes_bytes _ _⟩
      unfold intParse
      rw [show IntKind.s16.size = 2 from rfl, if_pos hlen, hfrom]
      by_cases hx : 32768 ≤ (v % 65536).toNat
      · rw [if_pos ⟨rfl, hx⟩]
        simp only [Option.some.injEq]
        omega
      · rw [if_neg (fun hc => hx hc.2)]
        simp only [Option.some.injEq]
        omega
  case u32 =>
    unfold intBuild at h
    rw [show IntKind.u32.lo = 0 from rfl, show IntKind.u32.hi = 4294967295 from rfl,
        show IntKind.u32.size = 4 from rfl,
        show ((2:Int) ^ (8 * 4)) = 4294967296 by norm_num] at h
    split at h
    case isFalse => exact absurd h (by simp)
    case isTrue hr =>
      have hp : p = leBytes 4 ((v % 4294967296).toNat) := by cases h; rfl
      have hlt : (v % 4294967296).toNat < 256 ^ 4 := by norm_num; omega
      have hfrom : fromLE p = (v % 4294967296).toNat := by rw [hp, fromLE_leBytes _ _ hlt]
      have hlen : p.length = 4 := by rw [hp, leBytes_length]
      refine ⟨?_, hlen, by rw [hp]; exact leBytes_bytes _ _⟩
      unfold intParse
      rw [show IntKind.u32.size = 4 from rfl, if_pos hlen, hfrom, if_neg (by simp)]
      simp only [Option.some.injEq]
      omega
  case u64 =>
    unfold intBuild at h
    rw [show IntKind.u64.lo = 0 from rfl, show IntKind.u64.hi = 18446744073709551615 from rfl,
        show IntKind.u64.size = 8 from rfl,
        show ((2:Int) ^ (8 * 8)) = 18446744073709551616 by norm_num] at h
    split at h
    case isFalse => exact absurd h (by simp)
    case isTrue hr =>
      have hp : p = leBytes 8 ((v % 18446744073709551616).toNat) := by cases h; rfl
      have hlt : (v % 18446744073709551616).toNat < 256 ^ 8 := by norm_num; omega
      have hfrom : fromLE p = (v % 18446744073709551616).toNat := by
        rw [hp, fromLE_leBytes _ _ hlt]
      have hlen : p.length = 8 := by rw [hp, leBytes_length]
      refine ⟨?_, hlen, by rw [hp]; exact leBytes_bytes _ _⟩
      unfold intParse
      rw [show IntKind.u64.size = 8 from rfl, if_pos hlen, hfrom, if_neg (by simp)]
      simp only [Option.some.injEq]
      omega

theorem pyDecode_ascii_step {b : Nat} (hb : b < 128) (rest : List Nat) :
    pyDecode (b :: rest) = (pyDecode rest).map (fun cs => Char.ofNat b :: cs) := by
  have hs : pyDecodeStep b rest = some (Char.ofNat b, rest) := by
    unfold pyDecodeStep
    rw [if_pos hb]
  simp only [pyDecode]
  split
  case h_1 heq => rw [hs] at heq; cases heq
  case h_2 c r heq =>
    rw [hs] at heq
    cases heq
    rfl

theorem pyDecode_ascii : ∀ (cs : List Char), (∀ c ∈ cs, c.toNat < 128) →
    pyDecode (cs.map Char.toNat ++ [0]) = some (cs ++ [Char.ofNat 0])
  | [], _ => by
    have h0 : pyDecode [] = some [] := by simp only [pyDecode]
    simp only [List.map_nil, List.nil_append]
    rw [pyDecode_ascii_step (by norm_num) [], h0]
    rfl
  | c :: cs, h => by
    have hc : c.toNat < 128 := h c (by simp)
    have ih := pyDecode_ascii cs (fun d hd => h d (by simp [hd]))
    simp only [List.map_cons, List.cons_append]
    rw [pyDecode_ascii_step hc, ih]
    simp [Char.ofNat_toNat]

theorem strBuild_parse {s : String} {p : List Nat} (h : strBuild s = some p) :
    strParse p = some s ∧ p.length = s.data.length + 1 ∧ ∀ b ∈ p, b < 256 := by
  unfold strBuild at h
  split at h
  case isFalse => exact absurd h (by simp)
  case isTrue ha =>
    have hp : p = s.data.map Char.toNat ++ [0] := by cases h; rfl
    have hascii : ∀ c ∈ s.data, c.toNat < 128 := by
      intro c hc
      have := List.all_eq_true.mp ha c hc
      simpa using this
    have hdec : pyDecode p = some (s.data ++ [Char.ofNat 0]) := by
      rw [hp]; exact pyDecode_ascii s.data hascii
    refine ⟨?_, by simp [hp], ?_⟩
    · unfold strParse
      rw [hdec]
      show (match (s.data ++ [Char.ofNat 0]).getLast? with
            | none => none
            | some c => some (String.mk (if c = Char.ofNat 0
                then (s.data ++ [Char.ofNat 0]).dropLast else s.data ++ [Char.ofNat 0]))) = some s
      rw [show (s.data ++ [Char.ofNat 0]).getLast? = some (Char.ofNat 0) by simp]
      show some (String.mk (if Char.ofNat 0 = Char.ofNat 0
          then (s.data ++ [Char.ofNat 0]).dropLast else s.data ++ [Char.ofNat 0])) = some s
      rw [if_pos rfl, List.dropLast_concat]
    · intro b hb
      rw [hp] at hb
      simp only [List.mem_append, List.mem_map, List.mem_cons] at hb
      rcases hb with ⟨c, hc, rfl⟩ | hb
      · exact lt_trans (hascii c hc) (by norm_num)
      · simp at hb; omega

/-! Step lemmas exposing one unfolding of the loop functions. -/

theorem setBuildLoop_nil (children : Fields) (ids : List (String × Nat)) :
    setBuildLoop children ids .nil = some [] := by
  simp only [setBuildLoop]

theorem setBuildLoop_cons_known {children : Fields} {ids : List (String × Nat)}
    {name : String} {val : Value} {rest : VMap} {child : Schema}
    (hf : Fields.lookup children name = some child) (hflag : child ≠ .flag) :
    setBuildLoop children ids (.cons name val rest) =
      (Option.bind (buildAttr child val) fun p =>
       Option.bind (idsLookup ids name) fun attrId =>
       Option.bind (packU16 (4 + p.length)) fun h1 =>
       Option.bind (packU16 attrId) fun h2 =>
       Option.bind (setBuildLoop children ids rest) fun q =>
       some (pad (h1 ++ h2 ++ p) ++ q)) := by
  simp only [setBuildLoop]
  split
  case h_1 heq => rw [hf] at heq; cases heq
  case h_2 child2 heq =>
    rw [hf] at heq
    cases heq
    cases child <;> first | rfl | exact absurd rfl hflag

theorem setBuildLoop_cons_flag {children : Fields} {ids : List (String × Nat)}
    {name : String} {val : Value} {rest : VMap}
    (hf : Fields.lookup children name = some .flag) :
    setBuildLoop children ids (.cons name val rest) =
      (if truthy val then
        Option.bind (idsLookup ids name) fun attrId =>
        Option.bind (packU16 4) fun h1 =>
        Option.bind (packU16 attrId) fun h2 =>
        Option.bind (setBuildLoop children ids rest) fun q =>
        some (pad (h1 ++ h2) ++ q)
      else setBuildLoop children ids rest) := by
  simp only [setBuildLoop]
  split
  case h_1 heq => rw [hf] at heq; cases heq
  case h_2 child2 heq =>
    rw [hf] at heq
    cases heq
    rfl

theorem setWalk_nil (children : Fields) (ids : List (String × Nat)) (acc : VMap) :
    setWalk children ids acc [] = some (acc, []) := by
  simp only [setWalk]

theorem setWalk_cons_unknown {children : Fields} {ids : List (String × Nat)} {acc : VMap}
    {attr : GNLAttribute} {rest : List GNLAttribute}
    (hc : findChild children ids attr.atype = some none) :
    setWalk children ids acc (attr :: rest) =
      (setWalk children ids acc rest).map
        (fun r => (r.1, (attr.atype, candidates ids attr.atype) :: r.2)) := by
  simp only [setWalk]
  split
  case h_1 heq => rw [hc] at heq; cases heq
  case h_2 heq => rfl
  case h_3 name child heq => rw [hc] at heq; cases heq

theorem setWalk_cons_known {children : Fields} {ids : List (String × Nat)} {acc : VMap}
    {attr : GNLAttribute} {rest : List GNLAttribute} {name : String} {child : Schema}
    (hc : findChild children ids attr.atype = some (some (name, child))) :
    setWalk children ids acc (attr :: rest) =
      (Option.bind (parseAttr child attr.adata) fun r1 =>
       Option.bind (setWalk children ids (acc.pyInsert name r1.1) rest) fun r2 =>
       some (r2.1, r1.2 ++ r2.2)) := by
  simp only [setWalk]
  split
  case h_1 heq => rw [hc] at heq; cases heq
  case h_2 heq => rw [hc] at heq; cases heq
  case h_3 name2 child2 heq =>
    rw [hc] at heq
    cases heq
    rfl

/-! Association-map helpers. -/

/-- Concatenation of two dicts with disjoint keys. -/
def vmapConcat : VMap → VMap → VMap
  | .nil, m => m
  | .cons k v r, m => .cons k v (vmapConcat r m)

theorem vmapConcat_nil_right : ∀ (a : VMap), vmapConcat a .nil = a
  | .nil => rfl
  | .cons k v r => by simp [vmapConcat, vmapConcat_nil_right r]

theorem vmapConcat_assoc : ∀ (a b c : VMap),
    vmapConcat (vmapConcat a b) c = vmapConcat a (vmapConcat b c)
  | .nil, _, _ => rfl
  | .cons k v r, b, c => by simp [vmapConcat, vmapConcat_assoc r b c]

theorem pyInsert_absent : ∀ (acc : VMap) (k : String) (v : Value),
    VMap.lookup acc k = none →
    VMap.pyInsert acc k v = vmapConcat acc (.cons k v .nil)
  | .nil, k, v, _ => rfl
  | .cons k0 v0 rest, k, v, h => by
    simp only [VMap.lookup] at h
    split at h
    · cases h
    · simp only [VMap.pyInsert, vmapConcat]
      rename_i hne
      rw [if_neg hne]
      rw [pyInsert_absent rest k v h]

theorem VMap.keys_concat : ∀ (a b : VMap),
    VMap.keys (vmapConcat a b) = VMap.keys a ++ VMap.keys b
  | .nil, _ => rfl
  | .cons k v r, b => by simp [vmapConcat, VMap.keys, VMap.keys_concat r b]

theorem VMap.lookup_none_of_not_mem : ∀ (m : VMap) (k : String),
    ¬ k ∈ VMap.keys m → VMap.lookup m k = none
  | .nil, _, _ => rfl
  | .cons k0 v0 r, k, h => by
    simp only [VMap.keys, List.mem_cons] at h
    push_neg at h
    simp only [VMap.lookup]
    rw [if_neg (fun he => h.1 he.symm)]
    exact VMap.lookup_none_of_not_mem r k h.2

theorem VMap.mem_of_lookup_isSome : ∀ (m : VMap) (k : String),
    (VMap.lookup m k).isSome = true → k ∈ VMap.keys m
  | .nil, k, h => by simp [VMap.lookup] at h
  | .cons k0 v0 r, k, h => by
    simp only [VMap.lookup] at h
    simp only [VMap.keys, List.mem_cons]
    split at h
    · left; rename_i he; exact he.symm
    · right; exact VMap.mem_of_lookup_isSome r k h

theorem VMap.lookup_isSome_of_mem : ∀ (m : VMap) (k : String),
    k ∈ VMap.keys m → (VMap.lookup m k).isSome = true
  | .nil, k, h => by simp [VMap.keys] at h
  | .cons k0 v0 r, k, h => by
    simp only [VMap.keys, List.mem_cons] at h
    simp only [VMap.lookup]
    split
    · rfl
    · rename_i hne
      rcases h with he | hm
      · exact absurd he.symm hne
      · exact VMap.lookup_isSome_of_mem r k hm

/-! Field-table helpers. -/

theorem Fields.lookup_mem_names : ∀ (fs : Fields) (k : String) (s : Schema),
    Fields.lookup fs k = some s → k ∈ Fields.names fs
  | .nil, k, s => by simp [Fields.lookup]
  | .cons n0 s0 rest, k, s => by
    simp only [Fields.lookup, Fields.names, List.mem_cons]
    split
    · rename_i he; exact fun _ => Or.inl he.symm
    · exact fun h => Or.inr (Fields.lookup_mem_names rest k s h)

theorem wfFields_lookup : ∀ (fs : Fields) (k : String) (s : Schema),
    wfFields fs = true → Fields.lookup fs k = some s → wfSchema s = true
  | .nil, k, s, _, h => by simp [Fields.lookup] at h
  | .cons n0 s0 rest, k, s, hwf, h => by
    simp only [wfFields, Bool.and_eq_true] at hwf
    simp only [Fields.lookup] at h
    split at h
    · cases h; exact hwf.1
    · exact wfFields_lookup rest k s hwf.2 h

theorem idsInj_eq {ids : List (String × Nat)} : ∀ {ns : List String},
    idsInj ids ns = true → ∀ {a b : String}, a ∈ ns → b ∈ ns →
    idsLookup ids a = idsLookup ids b → a = b
  | [], _, a, b, ha, _, _ => by simp at ha
  | n :: ns, h, a, b, ha, hb, heq => by
    simp only [idsInj, Bool.and_eq_true, List.all_eq_true] at h
    simp only [List.mem_cons] at ha hb
    have hne : ∀ c ∈ ns, idsLookup ids n ≠ idsLookup ids c := by
      intro c hc
      have := h.1 c hc
      simpa [bne_iff_ne] using this
    rcases ha with rfl | ha <;> rcases hb with rfl | hb
    · rfl
    · exact absurd heq (hne b hb)
    · exact absurd heq.symm (hne a ha)
    · exact idsInj_eq h.2 ha hb heq

/-- In a wellformed scope the matching loop finds exactly the child that
was built. -/
theorem findChild_of_name : ∀ (children : Fields) (ids : List (String × Nat))
    (name : String) (child : Schema) (t : Nat),
    Fields.lookup children name = some child →
    idsLookup ids name = some t →
    ((Fields.names children).all (fun n => (idsLookup ids n).isSome)) = true →
    idsInj ids (Fields.names children) = true →
    findChild children ids t = some (some (name, child))
  | .nil, ids, name, child, t, hf, hid, htot, hinj => by
    simp [Fields.lookup] at hf
  | .cons n0 s0 rest, ids, name, child, t, hf, hid, htot, hinj => by
    simp only [Fields.names, List.all_eq_true] at htot
    have h0 : (idsLookup ids n0).isSome = true := htot n0 (by simp)
    obtain ⟨i0, hi0⟩ : ∃ i0, idsLookup ids n0 = some i0 :=
      Option.isSome_iff_exists.mp h0
    simp only [findChild, hi0]
    by_cases hit : i0 = t
    · subst hit
      have hmemname : name ∈ Fields.names (.cons n0 s0 rest) :=
        Fields.lookup_mem_names _ _ _ hf
      have : n0 = name := by
        apply idsInj_eq hinj (by simp [Fields.names]) hmemname
        rw [hi0, hid]
      subst this
      have hs0 : s0 = child := by
        simp only [Fields.lookup] at hf
        simpa using hf
      subst hs0
      simp
    · rw [if_neg hit]
      have hname : name ≠ n0 := by
        intro he
        subst he
        rw [hid] at hi0
        cases hi0
        exact hit rfl
      simp only [Fields.lookup] at hf
      rw [if_neg (fun he => hname he.symm)] at hf
      simp only [Fields.names] at hinj hname
      exact findChild_of_name rest ids name child t hf hid
        (by simp only [List.all_eq_true]; intro n2 hn2; exact htot n2 (by simp [hn2]))
        (by simp only [idsInj, Bool.and_eq_true] at hinj; exact hinj.2)

theorem addFlagDefaults_nop : ∀ (children : Fields) (m : VMap),
    wfFields children = true → addFlagDefaults children m = m
  | .nil, m, _ => rfl
  | .cons n s rest, m, hwf => by
    simp only [wfFields, Bool.and_eq_true] at hwf
    have hrest := addFlagDefaults_nop rest m hwf.2
    cases s <;> simp only [addFlagDefaults] <;> first
      | exact hrest
      | (exact absurd hwf.1 (by simp [wfSchema]))

/-! Sequence and fill helpers for the list codec. -/

/-- The `(i + 1, element)` pairs of `enumerate` as used by the list
codec (ids are 1-based). -/
def seqPairs : Nat → List Value → List (Nat × Value)
  | _, [] => []
  | i, v :: vs => (i, v) :: seqPairs (i + 1) vs

theorem seqPairs_length : ∀ (vs : List Value) (i : Nat), (seqPairs i vs).length = vs.length
  | [], _ => rfl
  | v :: vs, i => by simp [seqPairs, seqPairs_length vs]

theorem ofList_toList : ∀ (l : VList), VList.ofList (VList.toList l) = l
  | .nil => rfl
  | .cons v rest => by simp [VList.toList, VList.ofList, ofList_toList rest]

theorem toList_ofList : ∀ (l : List Value), VList.toList (VList.ofList l) = l
  | [] => rfl
  | v :: rest => by simp [VList.toList, VList.ofList, toList_ofList rest]

theorem wf_not_flag {s : Schema} (h : wfSchema s = true) : s ≠ .flag := by
  intro he
  subst he
  simp [wfSchema] at h

theorem packU16_inv {n : Nat} {h : List Nat} (he : packU16 n = some h) :
    n < 65536 ∧ h = [n % 256, n / 256] := by
  unfold packU16 at he
  split at he
  · cases he; exact ⟨by assumption, rfl⟩
  · cases he

theorem dataChunks_nil (k : Nat) : dataChunks k [] = [] := by
  simp only [dataChunks]

theorem dataChunks_cons {k : Nat} (hk : k ≠ 0) {p : List Nat} (hp : p.length = k)
    (rest : List Nat) : dataChunks k (p ++ rest) = p :: dataChunks k rest := by
  cases p with
  | nil => simp at hp; omega
  | cons b bs =>
    simp only [List.cons_append]
    rw [dataChunks]
    rw [dif_neg hk]
    have hlen : (b :: (bs ++ rest)).take k = b :: bs := by
      rw [show b :: (bs ++ rest) = (b :: bs) ++ rest by simp, ← hp, List.take_left]
    have hdrop : (b :: (bs ++ rest)).drop k = rest := by
      rw [show b :: (bs ++ rest) = (b :: bs) ++ rest by simp, ← hp, List.drop_left]
    rw [hlen, hdrop]

theorem pyListSet_nat {l : List Value} {j : Nat} {v : Value} (hj : j < l.length) :
    pyListSet l ((j : Nat) : Int) v = some (l.set j v) := by
  unfold pyListSet
  rw [if_neg (by omega)]
  rw [if_pos (by exact_mod_cast hj)]
  simp

theorem listFill_seq : ∀ (vs : List Value) (st : List Value) (j : Nat),
    st.length = j + vs.length →
    listFill st (seqPairs (j + 1) vs) = some (st.take j ++ vs)
  | [], st, j, h => by
    simp only [seqPairs, listFill]
    simp at h
    rw [← h, List.take_length]
    simp
  | v :: vs, st, j, h => by
    simp only [seqPairs, listFill]
    have hj : j < st.length := by simp at h; omega
    have hset : pyListSet st (((j + 1 : Nat) : Int) - 1) v = some (st.set j v) := by
      have h1 : ((j + 1 : Nat) : Int) - 1 = ((j : Nat) : Int) := by push_cast; ring
      rw [h1, pyListSet_nat hj]
    rw [hset]
    show listFill (st.set j v) (seqPairs (j + 1 + 1) vs) = some (st.take j ++ v :: vs)
    have hrec := listFill_seq vs (st.set j v) (j + 1)
      (by simp only [List.length_set]; simp at h ⊢; omega)
    rw [hrec]
    have hsetsplit : st.set j v = st.take j ++ v :: st.drop (j + 1) := by
      rw [List.set_eq_take_append_cons_drop, if_pos hj]
    have htake : (st.set j v).take (j + 1) = st.take j ++ [v] := by
      rw [hsetsplit]
      rw [show j + 1 = (st.take j).length + 1 by rw [List.length_take]; omega]
      rw [List.take_append]
      simp
    rw [htake]
    simp

theorem foldl_max_seqPairs : ∀ (vs : List Value) (i a : Nat),
    List.foldl max a ((seqPairs i vs).map (fun x => x.1)) =
      if vs.isEmpty then a else max a (i + vs.length - 1)
  | [], _, _ => rfl
  | v :: vs, i, a => by
    simp only [seqPairs, List.map_cons, List.foldl_cons, foldl_max_seqPairs vs (i + 1) (max a i)]
    cases vs with
    | nil => simp <;> omega
    | cons w ws => simp only [List.isEmpty, List.length_cons] <;> simp <;> omega

theorem arrayLoop_roundtrip : ∀ (k : IntKind) (l : VList) (pl : List Nat),
    arrayBuildLoop (.int k) l = some pl →
    arrayParseSeq (.int k) (dataChunks k.size pl) = some (VList.toList l, [])
  | k, .nil, pl, hb => by
    simp only [arrayBuildLoop] at hb
    cases hb
    rw [dataChunks_nil]
    simp only [arrayParseSeq, VList.toList]
  | k, .cons v rest, pl, hb => by
    simp only [arrayBuildLoop, Option.bind_eq_some] at hb
    obtain ⟨p, hp, q, hq, heq⟩ := hb
    have hpl : pl = p ++ q := by
      cases heq; rfl
    subst hpl
    have hk0 : k.size ≠ 0 := by cases k <;> simp [IntKind.size]
    cases v
    case vint x =>
      simp only [buildAttr] at hp
      obtain ⟨hparse, hlen, _⟩ := intBuild_parse hp
      rw [dataChunks_cons hk0 hlen q]
      simp only [arrayParseSeq, Option.bind_eq_some]
      refine ⟨(.vint x, []), ?_, (VList.toList rest, []), ?_, ?_⟩
      · simp only [parseAttr, hparse]
        rfl
      · exact arrayLoop_roundtrip k rest q hq
      · simp [VList.toList]
    all_goals (simp only [buildAttr] at hp; cases hp)

theorem VMap.not_mem_of_lookup_none {m : VMap} {k : String}
    (h : VMap.lookup m k = none) : ¬ k ∈ VMap.keys m := by
  intro hm
  have h2 := VMap.lookup_isSome_of_mem m k hm
  rw [h] at h2
  cases h2

theorem pad_chunk (t : Nat) (p : List Nat) :
    pad ([(4 + p.length) % 256, (4 + p.length) / 256] ++ [t % 256, t / 256] ++ p) =
      mkChunk t p := by
  unfold pad mkChunk
  have hl : ([(4 + p.length) % 256, (4 + p.length) / 256] ++ [t % 256, t / 256] ++ p).length =
      4 + p.length := by simp; omega
  rw [hl]
  simp

mutual
/-- Value round-trip for a single child codec: parsing the bytes built
from a wellformed value returns that value with no warnings. -/
theorem buildAttr_roundtrip (s : Schema) (v : Value) (p : List Nat)
    (hwf : wfSchema s = true) (hv : vwf v = true) (hb : buildAttr s v = some p) :
    parseAttr s p = some (v, []) := by
  cases s with
  | int k =>
    cases v
    case vint x =>
      simp only [buildAttr] at hb
      obtain ⟨hparse, hlen, _⟩ := intBuild_parse hb
      simp only [parseAttr, hparse]
      rfl
    all_goals (simp only [buildAttr] at hb; cases hb)
  | str =>
    cases v
    case vstr t =>
      simp only [buildAttr] at hb
      obtain ⟨hparse, _, _⟩ := strBuild_parse hb
      simp only [parseAttr, hparse]
      rfl
    all_goals (simp only [buildAttr] at hb; cases hb)
  | bytes =>
    cases v
    case vbytes bs =>
      simp only [buildAttr] at hb
      cases hb
      simp only [parseAttr]
    all_goals (simp only [buildAttr] at hb; cases hb)
  | flag => simp [wfSchema] at hwf
  | array sub =>
    cases sub
    case int k =>
      cases v
      case vlist l =>
        simp only [buildAttr] at hb
        have harr := arrayLoop_roundtrip k l p hb
        simp only [parseAttr, subSize]
        rw [harr]
        simp [ofList_toList]
      all_goals (simp only [buildAttr] at hb; cases hb)
    all_goals simp [wfSchema] at hwf
  | nlist sub =>
    simp only [wfSchema] at hwf
    cases v
    case vlist l =>
      simp only [vwf] at hv
      simp only [buildAttr] at hb
      cases l with
      | nil =>
        simp only [listBuildLoop] at hb
        cases hb
        simp only [parseAttr]
        rw [pga_nil]
        simp only [Option.some_bind]
      | cons v0 rest =>
        obtain ⟨attrs, hpga, hloop, hmap⟩ :=
          listLoop_roundtrip sub 1 (.cons v0 rest) p hwf hv hb
        simp only [parseAttr]
        rw [hpga]
        simp only [Option.some_bind]
        have hne : attrs ≠ [] := by
          intro he
          subst he
          simp [seqPairs, VList.toList] at hmap
        cases attrs with
        | nil => exact absurd rfl hne
        | cons a as =>
          rw [hloop]
          simp only [Option.some_bind]
          have hmx : ((a :: as).map (fun x => x.atype)).foldl max 0 =
              (VList.toList (VList.cons v0 rest)).length := by
            rw [hmap, foldl_max_seqPairs]
            simp [VList.toList]
          rw [hmx]
          have hfill := listFill_seq (VList.toList (VList.cons v0 rest))
            (List.replicate (VList.toList (VList.cons v0 rest)).length Value.vnone) 0
            (by simp)
          simp only [seqPairs] at hfill ⊢
          rw [show (0 + 1 : Nat) = 1 from rfl] at hfill
          rw [hfill]
          simp only [Option.some_bind, List.take_zero, List.nil_append]
          rw [ofList_toList]
      all_goals (simp only [buildAttr] at hb; cases hb)
    all_goals (simp only [buildAttr] at hb; cases hb)
  | set children ids required nm =>
    cases v
    case vmap m =>
      simp only [wfSchema, Bool.and_eq_true] at hwf
      obtain ⟨⟨⟨hwff, hnd⟩, htot⟩, hinj⟩ := hwf
      simp only [vwf, Bool.and_eq_true] at hv
      obtain ⟨hm, hmnd⟩ := hv
      simp only [buildAttr] at hb
      split at hb
      case isFalse => cases hb
      case isTrue htr =>
        simp only [setBuildCore] at hb
        split at hb
        case isFalse => cases hb
        case isTrue hunk =>
          split at hb
          case isFalse => cases hb
          case isTrue hreq =>
            have hkeys : ∀ k ∈ VMap.keys m, (Fields.lookup children k).isSome = true :=
              fun k hk => (List.all_eq_true.mp hunk) k hk
            obtain ⟨attrs, hpga, hwalk⟩ :=
              setLoop_roundtrip children ids m p hwff htot hinj hm hmnd hkeys hb
                VMap.nil (fun k _ => rfl)
            simp only [parseAttr]
            rw [hpga]
            simp only [Option.some_bind]
            rw [hwalk]
            simp only [Option.some_bind, vmapConcat]
            rw [if_pos ?req]
            case req =>
              rw [List.all_eq_true] at hreq ⊢
              intro r hr
              have := hreq r hr
              exact VMap.lookup_isSome_of_mem m r (by simpa using this)
            rw [addFlagDefaults_nop children m hwff]
    all_goals (simp only [buildAttr] at hb; cases hb)
termination_by (sizeOf s, 0)
decreasing_by
  all_goals first
    | decreasing_tactic
    | (simp_wf; apply Prod.Lex.left; simp_arith)

/-- Round-trip of the list codec loop: the emitted TLVs carry ids
`i, i+1, ...` and parse back to the enumerated elements. -/
theorem listLoop_roundtrip (sub : Schema) (i : Nat) (l : VList) (pl : List Nat)
    (hwf : wfSchema sub = true) (hl : vwfList l = true)
    (hb : listBuildLoop sub i l = some pl) :
    ∃ attrs, parse_generic_attributes pl = some attrs ∧
      listParseLoop sub attrs = some (seqPairs i (VList.toList l), []) ∧
      attrs.map (fun a => a.atype) = (seqPairs i (VList.toList l)).map (fun x => x.1) := by
  cases l with
  | nil =>
    simp only [listBuildLoop] at hb
    cases hb
    refine ⟨[], pga_nil, ?_, ?_⟩
    · simp only [listParseLoop, VList.toList, seqPairs]
    · simp [VList.toList, seqPairs]
  | cons v rest =>
    simp only [listBuildLoop, Option.bind_eq_some] at hb
    obtain ⟨p, hp, h1, hh1, h2, hh2, q, hq, heq⟩ := hb
    cases heq
    obtain ⟨hlt, rfl⟩ := packU16_inv hh1
    obtain ⟨hit, rfl⟩ := packU16_inv hh2
    simp only [vwfList, Bool.and_eq_true] at hl
    have hchild := buildAttr_roundtrip sub v p hwf hl.1 hp
    obtain ⟨attrs2, hpga2, hloop2, hmap2⟩ := listLoop_roundtrip sub (i + 1) rest q hwf hl.2 hq
    refine ⟨⟨4 + p.length, i, p⟩ :: attrs2, ?_, ?_, ?_⟩
    · rw [pad_chunk i p, pga_cons i p q hlt hit, hpga2]
      rfl
    · simp only [listParseLoop]
      rw [hchild]
      simp only [Option.some_bind]
      rw [hloop2]
      simp only [Option.some_bind]
      simp [seqPairs, VList.toList]
    · simp [hmap2, seqPairs, VList.toList]
termination_by (sizeOf sub, sizeOf l + 1)
decreasing_by
  all_goals first
    | decreasing_tactic
    | (simp_wf; apply Prod.Lex.right; simp_arith)

/-- Round-trip of the attribute-set emission loop against the parse
walk, for any accumulator whose keys are disjoint from the built
mapping. -/
theorem setLoop_roundtrip (children : Fields) (ids : List (String × Nat)) (m : VMap)
    (pl : List Nat)
    (hwff : wfFields children = true)
    (htot : ((Fields.names children).all (fun n => (idsLookup ids n).isSome)) = true)
    (hinj : idsInj ids (Fields.names children) = true)
    (hm : vwfMap m = true) (hnd : listNodup (VMap.keys m) = true)
    (hkeys : ∀ k ∈ VMap.keys m, (Fields.lookup children k).isSome = true)
    (hb : setBuildLoop children ids m = some pl)
    (acc : VMap) (hacc : ∀ k ∈ VMap.keys m, VMap.lookup acc k = none) :
    ∃ attrs, parse_generic_attributes pl = some attrs ∧
      setWalk children ids acc attrs = some (vmapConcat acc m, []) := by
  cases m with
  | nil =>
    rw [setBuildLoop_nil] at hb
    cases hb
    refine ⟨[], pga_nil, ?_⟩
    rw [setWalk_nil, vmapConcat_nil_right]
  | cons name val rest =>
    have hkname : (Fields.lookup children name).isSome = true :=
      hkeys name (by simp [VMap.keys])
    obtain ⟨child, hf⟩ := Option.isSome_iff_exists.mp hkname
    have hwfchild : wfSchema child = true := wfFields_lookup _ _ _ hwff hf
    have hnotflag : child ≠ .flag := wf_not_flag hwfchild
    rw [setBuildLoop_cons_known hf hnotflag] at hb
    simp only [Option.bind_eq_some] at hb
    obtain ⟨p, hp, t, hid, h1, hh1, h2, hh2, q, hq, heq⟩ := hb
    cases heq
    obtain ⟨hlt, rfl⟩ := packU16_inv hh1
    obtain ⟨htlt, rfl⟩ := packU16_inv hh2
    simp only [vwfMap, Bool.and_eq_true] at hm
    simp only [VMap.keys, listNodup, Bool.and_eq_true] at hnd
    have haccname : VMap.lookup acc name = none := hacc name (by simp [VMap.keys])
    have hacc2 : ∀ k ∈ VMap.keys rest, VMap.lookup (acc.pyInsert name val) k = none := by
      intro k hk
      have hknotmem : name ∉ VMap.keys rest := by simpa using hnd.1
      have hkne : k ≠ name := fun he => hknotmem (he ▸ hk)
      rw [pyInsert_absent acc name val haccname]
      apply VMap.lookup_none_of_not_mem
      rw [VMap.keys_concat]
      simp only [List.mem_append, VMap.keys, List.mem_cons, List.not_mem_nil]
      push_neg
      refine ⟨?_, ?_, fun h => h⟩
      · exact VMap.not_mem_of_lookup_none (hacc k (by simp [VMap.keys, hk]))
      · exact hkne
    obtain ⟨attrs2, hpga2, hwalk2⟩ :=
      setLoop_roundtrip children ids rest q hwff htot hinj hm.2 hnd.2
        (fun k hk => hkeys k (by simp [VMap.keys, hk])) hq
        (acc.pyInsert name val) hacc2
    refine ⟨⟨4 + p.length, t, p⟩ :: attrs2, ?_, ?_⟩
    · rw [pad_chunk t p, pga_cons t p q hlt htlt, hpga2]
      rfl
    · have hfind : findChild children ids t = some (some (name, child)) :=
        findChild_of_name children ids name child t hf hid htot hinj
      rw [setWalk_cons_known hfind]
      have hchild := buildAttr_roundtrip child val p hwfchild hm.1 hp
      rw [hchild]
      simp only [Option.some_bind]
      rw [hwalk2]
      simp only [Option.some_bind, List.nil_append]
      rw [pyInsert_absent acc name val haccname, vmapConcat_assoc]
      rfl
termination_by (sizeOf children, sizeOf m + 1)
decreasing_by
  all_goals first
    | decreasing_tactic
    | (simp_wf
       apply Prod.Lex.left
       exact Fields.lookup_sizeOf _ _ _ (by assumption))
end

theorem setWalk_cons_err {children : Fields} {ids : List (String × Nat)} {acc : VMap}
    {attr : GNLAttribute} {rest : List GNLAttribute}
    (hc : findChild children ids attr.atype = none) :
    setWalk children ids acc (attr :: rest) = none := by
  simp only [setWalk]
  split
  case h_1 heq => rfl
  case h_2 heq => rw [hc] at heq; cases heq
  case h_3 name child heq => rw [hc] at heq; cases heq

/-- Whether the TLV's type id resolves to a declared child of the scope
(the `for ... else` search of `NlAttrSchema.parse` not hitting the
`else` arm). -/
def knownAttr (children : Fields) (ids : List (String × Nat)) (a : GNLAttribute) : Bool :=
  match findChild children ids a.atype with
  | some none => false
  | _ => true

theorem knownAttr_false_iff {children : Fields} {ids : List (String × Nat)}
    {a : GNLAttribute} :
    knownAttr children ids a = false ↔ findChild children ids a.atype = some none := by
  cases hfc : findChild children ids a.atype with
  | none => simp [knownAttr, hfc]
  | some o =>
    cases o with
    | none => simp [knownAttr, hfc]
    | some nc => simp [knownAttr, hfc]

/-- Unknown attribute ids never make the parse walk fail, change none of
the recognized values, and each contributes its warning with the
candidate names from the id table. -/
theorem walk_skips_unknown : ∀ (attrs : List GNLAttribute) (children : Fields)
    (ids : List (String × Nat)) (acc vals : VMap) (warns : List Warn),
    setWalk children ids acc (attrs.filter (knownAttr children ids)) = some (vals, warns) →
    ∃ warns2, setWalk children ids acc attrs = some (vals, warns2) ∧
      ∀ a ∈ attrs, knownAttr children ids a = false →
        (a.atype, candidates ids a.atype) ∈ warns2
  | [], children, ids, acc, vals, warns, h => by
    simp only [List.filter_nil] at h
    rw [setWalk_nil] at h
    cases h
    exact ⟨[], setWalk_nil _ _ _, by simp⟩
  | a :: rest, children, ids, acc, vals, warns, h => by
    cases hk : knownAttr children ids a with
    | false =>
      rw [List.filter_cons, hk] at h
      simp only [Bool.false_eq_true, if_false] at h
      obtain ⟨w2, hw2, hmem⟩ := walk_skips_unknown rest children ids acc vals warns h
      have hfc : findChild children ids a.atype = some none := knownAttr_false_iff.mp hk
      refine ⟨(a.atype, candidates ids a.atype) :: w2, ?_, ?_⟩
      · rw [setWalk_cons_unknown hfc, hw2]
        rfl
      · intro x hx hxk
        rcases List.mem_cons.mp hx with rfl | hx2
        · exact List.mem_cons_self _ _
        · exact List.mem_cons_of_mem _ (hmem x hx2 hxk)
    | true =>
      rw [List.filter_cons, hk] at h
      simp only [if_true] at h
      cases hfc : findChild children ids a.atype with
      | none =>
        rw [setWalk_cons_err hfc] at h
        cases h
      | some o =>
        cases o with
        | none =>
          have := knownAttr_false_iff.mpr hfc
          rw [hk] at this
          cases this
        | some nc =>
          obtain ⟨name, child⟩ := nc
          rw [setWalk_cons_known hfc] at h
          cases hpa : parseAttr child a.adata with
          | none => rw [hpa] at h; cases h
          | some r1 =>
            rw [hpa] at h
            simp only [Option.some_bind] at h
            cases hr2 : setWalk children ids (acc.pyInsert name r1.1) (rest.filter (knownAttr children ids)) with
            | none => rw [hr2] at h; cases h
            | some r2 =>
              rw [hr2] at h
              simp only [Option.some_bind, Option.some.injEq] at h
              cases h
              obtain ⟨w2, hw2, hmem⟩ :=
                walk_skips_unknown rest children ids (acc.pyInsert name r1.1) r2.1 r2.2
                  (by rw [hr2])
              refine ⟨r1.2 ++ w2, ?_, ?_⟩
              · rw [setWalk_cons_known hfc, hpa]
                simp only [Option.some_bind]
                rw [hw2]
                simp only [Option.some_bind]
              · intro x hx hxk
                rcases List.mem_cons.mp hx with rfl | hx2
                · rw [hxk] at hk; cases hk
                · exact List.mem_append_right _ (hmem x hx2 hxk)

/-- Every buffer emitted by the attribute-set loop is a concatenation of
padded TLV chunks with in-range length and id fields. -/
theorem setLoop_chunks : ∀ (children : Fields) (ids : List (String × Nat)) (m : VMap)
    (pl : List Nat), setBuildLoop children ids m = some pl →
    ∃ tl : List (Nat × List Nat),
      pl = (tl.map (fun x => mkChunk x.1 x.2)).flatten ∧
      ∀ x ∈ tl, 4 + x.2.length < 65536 ∧ x.1 < 65536
  | children, ids, .nil, pl, hb => by
    rw [setBuildLoop_nil] at hb
    cases hb
    exact ⟨[], by simp, by simp⟩
  | children, ids, .cons name val rest, pl, hb => by
    simp only [setBuildLoop] at hb
    split at hb
    case h_1 => cases hb
    case h_2 child heq =>
      cases child
      case flag =>
        by_cases ht : truthy val = true
        · rw [if_pos ht] at hb
          simp only [Option.bind_eq_some] at hb
          obtain ⟨t, hid, h1, hh1, h2, hh2, q, hq, heqq⟩ := hb
          cases heqq
          obtain ⟨hlt4, rfl⟩ := packU16_inv hh1
          obtain ⟨htlt, rfl⟩ := packU16_inv hh2
          obtain ⟨tl, htl, hbnd⟩ := setLoop_chunks children ids rest q hq
          refine ⟨(t, []) :: tl, ?_, ?_⟩
          · have hpc := pad_chunk t []
            simp only [List.append_nil] at hpc
            simp only [List.map_cons, List.flatten_cons, ← htl, ← hpc]
            rfl
          · intro x hx
            rcases List.mem_cons.mp hx with rfl | hx2
            · exact ⟨by simp, htlt⟩
            · exact hbnd x hx2
        · rw [if_neg ht] at hb
          exact setLoop_chunks children ids rest pl hb
      all_goals (
        simp only [Option.bind_eq_some] at hb
        obtain ⟨p, hp, t, hid, h1, hh1, h2, hh2, q, hq, heqq⟩ := hb
        cases heqq
        obtain ⟨hlt4, rfl⟩ := packU16_inv hh1
        obtain ⟨htlt, rfl⟩ := packU16_inv hh2
        obtain ⟨tl, htl, hbnd⟩ := setLoop_chunks children ids rest q hq
        refine ⟨(t, p) :: tl, ?_, ?_⟩
        · simp only [List.map_cons, List.flatten_cons, ← htl, ← pad_chunk t p]
        · intro x hx
          rcases List.mem_cons.mp hx with rfl | hx2
          · exact ⟨hlt4, htlt⟩
          · exact hbnd x hx2)

theorem pyDecode_nonempty : ∀ {bs : List Nat} {cs : List Char},
    bs ≠ [] → pyDecode bs = some cs → cs ≠ [] := by
  intro bs cs hne hdec
  cases bs with
  | nil => exact absurd rfl hne
  | cons b rest =>
    simp only [pyDecode] at hdec
    split at hdec
    case h_1 => cases hdec
    case h_2 c r heq =>
      cases hre : pyDecode r with
      | none => rw [hre] at hdec; cases hdec
      | some cs2 =>
        rw [hre] at hdec
        have hcs : cs = c :: cs2 := by
          simpa using hdec.symm
        rw [hcs]
        simp

theorem schema_build_core {S : NlAttrSchema} {m : VMap} {b : List Nat}
    (hb : S.build (some m) VMap.nil = some b) :
    setBuildCore S.subattr_schemata S.ids S.required_attrs m = some b := by
  cases m with
  | nil => simp [NlAttrSchema.build, truthyOpt, truthyVMap] at hb
  | cons n v r => simpa [NlAttrSchema.build, truthyOpt, truthyVMap] using hb

/-- Full value round-trip of the compiled attribute-set codec: parsing
the buffer built from an accepted wellformed value mapping returns that
mapping (in order) and no warnings. -/
theorem schema_roundtrip (S : NlAttrSchema) (m : VMap) (b : List Nat)
    (hwf : wfSchema S.toSchema = true) (hv : vwf (Value.vmap m) = true)
    (hb : S.build (some m) VMap.nil = some b) :
    S.parse b = some (m, []) := by
  have hcore := schema_build_core hb
  simp only [NlAttrSchema.toSchema, wfSchema, Bool.and_eq_true] at hwf
  obtain ⟨⟨⟨hwff, hnd⟩, htot⟩, hinj⟩ := hwf
  simp only [vwf, Bool.and_eq_true] at hv
  obtain ⟨hm, hmnd⟩ := hv
  simp only [setBuildCore] at hcore
  split at hcore
  case isFalse => cases hcore
  case isTrue hunk =>
    split at hcore
    case isFalse => cases hcore
    case isTrue hreq =>
      have hkeys : ∀ k ∈ VMap.keys m, (Fields.lookup S.subattr_schemata k).isSome = true :=
        fun k hk => (List.all_eq_true.mp hunk) k hk
      obtain ⟨attrs, hpga, hwalk⟩ :=
        setLoop_roundtrip S.subattr_schemata S.ids m b hwff htot hinj hm hmnd hkeys hcore
          VMap.nil (fun k _ => rfl)
      simp only [NlAttrSchema.parse]
      rw [hpga]
      simp only [Option.some_bind]
      rw [hwalk]
      simp only [Option.some_bind, vmapConcat]
      rw [if_pos ?req]
      case req =>
        rw [List.all_eq_true] at hreq ⊢
        intro r hr
        exact VMap.lookup_isSome_of_mem m r (by simpa using hreq r hr)
      rw [addFlagDefaults_nop S.subattr_schemata m hwff]

/-- A tiny compiled codec over one u8 attribute, a concrete witness
input. -/
def sampleU8 : NlAttrSchema :=
  ⟨.cons "A" (.int .u8) .nil, [("A", 1)], [], [("a", "A")]⟩

/-- The value mapping built and reparsed in the witnesses. -/
def sampleU8Vals : VMap := .cons "A" (.vint 5) .nil

/-- A tiny codec over one string attribute, for the byte-level
counterexample. -/
def sampleStr : NlAttrSchema :=
  ⟨.cons "ATTR_NAME" .str .nil, [("ATTR_NAME", 2)], [], [("name", "ATTR_NAME")]⟩

/-- C1: for every compiled attribute-set codec (a codec tree the source
compiler accepts — in particular flag-free — whose scope satisfies the
spec's schema validity: unique child names, all child names in the id
table, ids unique within the scope) and every wellformed value mapping
the codec's `build` accepts in the positional input form (known names
only, all required names present, exactly one input form — all enforced
by `build` itself), parsing the bytes produced by building the mapping
yields a value tree equal to it: `S.parse (S.build v) = v`, here with
the parse warnings also shown empty. -/
theorem C1_parse_build_roundtrip (S : NlAttrSchema) (m : VMap) (b : List Nat)
    (hwf : wfSchema S.toSchema = true) (hv : vwf (Value.vmap m) = true)
    (hb : S.build (some m) VMap.nil = some b) :
    S.parse b = some (m, []) :=
  schema_roundtrip S m b hwf hv hb

/-- Witness for C1 at a concrete codec and value. -/
theorem C1_witness :
    wfSchema sampleU8.toSchema = true ∧ vwf (Value.vmap sampleU8Vals) = true ∧
    sampleU8.build (some sampleU8Vals) VMap.nil = some [5, 0, 1, 0, 5, 0, 0, 0] ∧
    sampleU8.parse [5, 0, 1, 0, 5, 0, 0, 0] = some (sampleU8Vals, []) :=
  have h1 : wfSchema sampleU8.toSchema = true := by
    simp [sampleU8, NlAttrSchema.toSchema, wfSchema, wfFields, listNodup, idsInj,
      Fields.names, idsLookup]
  have h2 : vwf (Value.vmap sampleU8Vals) = true := by
    simp [sampleU8Vals, vwf, vwfMap, listNodup, VMap.keys]
  have h3 : sampleU8.build (some sampleU8Vals) VMap.nil = some [5, 0, 1, 0, 5, 0, 0, 0] := by
    simp [sampleU8, sampleU8Vals, NlAttrSchema.build, truthyOpt, truthyVMap, setBuildCore,
      setBuildLoop, buildAttr, intBuild, leBytes, packU16, pad, align, VMap.keys,
      Fields.lookup, idsLookup, IntKind.lo, IntKind.hi, IntKind.size]
  ⟨h1, h2, h3, C1_parse_build_roundtrip sampleU8 sampleU8Vals _ h1 h2 h3⟩

/-- C2 counterexample: the buffer `[6, 0, 2, 0, 104, 105, 0, 0]` — a
string TLV of declared length 6 whose payload "hi" has no trailing NUL
— is accepted by `sampleStr.parse` and every TLV type id (here 2)
matches a declared child, yet rebuilding the parsed value yields
`[7, 0, 2, 0, 104, 105, 0, 0]` (the canonical NUL-terminated form),
which differs from the original buffer; so `S.build (S.parse b) = b`
fails on an accepted buffer with no unknown attributes. -/
theorem C2_counterexample :
    sampleStr.parse [6, 0, 2, 0, 104, 105, 0, 0] =
      some (.cons "ATTR_NAME" (.vstr "hi") .nil, []) ∧
    sampleStr.build (some (.cons "ATTR_NAME" (.vstr "hi") .nil)) VMap.nil =
      some [7, 0, 2, 0, 104, 105, 0, 0] ∧
    ([7, 0, 2, 0, 104, 105, 0, 0] : List Nat) ≠ [6, 0, 2, 0, 104, 105, 0, 0] := by
  refine ⟨?_, ?_, by decide⟩
  · simp [sampleStr, NlAttrSchema.parse, parse_generic_attributes, readU16, align,
      setWalk, findChild, idsLookup, parseAttr, strParse, pyDecode, pyDecodeStep,
      addFlagDefaults, VMap.lookup, VMap.pyInsert, vmapConcat, List.find?]
  · simp [sampleStr, NlAttrSchema.build, truthyOpt, truthyVMap, setBuildCore,
      setBuildLoop, buildAttr, strBuild, packU16, pad, align, VMap.keys, Fields.lookup,
      idsLookup, List.find?]

/-- C2 amended: the byte-level round-trip `S.build (S.parse b) = b`
holds for every buffer in the image of `S.build` (rather than for every
accepted buffer with known ids, which the counterexample refutes): if
`b` was produced by building an accepted wellformed mapping, parsing it
and rebuilding the result reproduces `b` byte-for-byte. -/
theorem C2_build_parse_roundtrip (S : NlAttrSchema) (m : VMap) (b : List Nat)
    (hwf : wfSchema S.toSchema = true) (hv : vwf (Value.vmap m) = true)
    (hb : S.build (some m) VMap.nil = some b) :
    ∃ m2 ws, S.parse b = some (m2, ws) ∧ S.build (some m2) VMap.nil = some b :=
  ⟨m, [], schema_roundtrip S m b hwf hv hb, hb⟩

/-- Witness for the amended C2 at a concrete codec and buffer. -/
theorem C2_witness :
    ∃ m2 ws, sampleU8.parse [5, 0, 1, 0, 5, 0, 0, 0] = some (m2, ws) ∧
      sampleU8.build (some m2) VMap.nil = some [5, 0, 1, 0, 5, 0, 0, 0] :=
  C2_build_parse_roundtrip sampleU8 sampleU8Vals [5, 0, 1, 0, 5, 0, 0, 0]
    (by simp [sampleU8, NlAttrSchema.toSchema, wfSchema, wfFields, listNodup, idsInj,
      Fields.names, idsLookup])
    (by simp [sampleU8Vals, vwf, vwfMap, listNodup, VMap.keys])
    (by simp [sampleU8, sampleU8Vals, NlAttrSchema.build, truthyOpt, truthyVMap,
      setBuildCore, setBuildLoop, buildAttr, intBuild, leBytes, packU16, pad, align,
      VMap.keys, Fields.lookup, idsLookup, IntKind.lo, IntKind.hi, IntKind.size])

/-- Modelled from the spec: the flag-over-one-attribute codec of the
repository's test `test_flag` (the flag leaf class is missing from
src/genl/nlattr.py though the tests exercise it). -/
def sampleFlag : NlAttrSchema :=
  ⟨.cons "ATTR_FOO" .flag .nil, [("ATTR_FOO", 1)], [], [("foo", "ATTR_FOO")]⟩

/-- C3: a schema containing a field of kind flag compiles to a codec
for which building with the flag true emits the 4-byte headers-only TLV
`[4, 0, 1, 0]` (empty payload), building with the flag false omits the
TLV entirely so the attribute set serializes to the empty buffer,
parsing a buffer holding the TLV with any payload yields true for the
flag, and parsing the empty buffer yields a value tree in which the
flag is false.  The flag codec itself is modelled from the spec, its
class being absent from src/genl/nlattr.py. -/
theorem C3_flag_codec (payload : List Nat) (hlen : 4 + payload.length < 65536) :
    sampleFlag.build (some (.cons "ATTR_FOO" (.vbool true) .nil)) VMap.nil =
      some [4, 0, 1, 0] ∧
    sampleFlag.build (some (.cons "ATTR_FOO" (.vbool false) .nil)) VMap.nil = some [] ∧
    sampleFlag.parse (mkChunk 1 payload) =
      some (.cons "ATTR_FOO" (.vbool true) .nil, []) ∧
    sampleFlag.parse [] = some (.cons "ATTR_FOO" (.vbool false) .nil, []) := by
  refine ⟨?_, ?_, ?_, ?_⟩
  · simp [sampleFlag, NlAttrSchema.build, truthyOpt, truthyVMap, setBuildCore, setBuildLoop,
      truthy, packU16, pad, align, VMap.keys, Fields.lookup, idsLookup, List.find?]
  · simp [sampleFlag, NlAttrSchema.build, truthyOpt, truthyVMap, setBuildCore, setBuildLoop,
      truthy, VMap.keys, Fields.lookup, idsLookup, List.find?]
  · have hpga : parse_generic_attributes (mkChunk 1 payload) =
        some [⟨4 + payload.length, 1, payload⟩] := by
      have h := pga_chunks [(1, payload)] (by
        intro x hx
        simp only [List.mem_singleton] at hx
        subst hx
        exact ⟨hlen, by norm_num⟩)
      simpa using h
    simp only [sampleFlag, NlAttrSchema.parse]
    rw [hpga]
    simp [setWalk, findChild, idsLookup, List.find?, parseAttr, VMap.pyInsert,
      addFlagDefaults, VMap.lookup]
  · simp [sampleFlag, NlAttrSchema.parse, pga_nil, setWalk, addFlagDefaults,
      VMap.lookup, VMap.pyInsert]

/-- Witness for C3 at the one-byte payload `[9]`. -/
theorem C3_witness :
    4 + ([9] : List Nat).length < 65536 ∧
    sampleFlag.parse (mkChunk 1 [9]) = some (.cons "ATTR_FOO" (.vbool true) .nil, []) :=
  ⟨by decide, (C3_flag_codec [9] (by decide)).2.2.1⟩

/-- C4 counterexample: the buffer `[2, 0, 1, 0]` carries a TLV header
whose length field 2 is smaller than the 4-byte header size, and the
buffer `[8, 0, 1, 0, 5]` a header whose length field 8 overshoots the
5-byte buffer; the claim says the splitter must fail on both, yet
`parse_generic_attributes` accepts both (the source checks only for a
zero length field and a truncated 4-byte header; Python slices truncate
silently, so a short or overshooting length yields a truncated
payload). -/
theorem C4_counterexample :
    parse_generic_attributes [2, 0, 1, 0] = some [⟨2, 1, []⟩] ∧
    parse_generic_attributes [8, 0, 1, 0, 5] = some [⟨8, 1, [5]⟩] := by
  constructor
  · simp [parse_generic_attributes, readU16, align]
  · simp [parse_generic_attributes, readU16, align]

/-- C4 amended: the attribute-stream splitter fails on a zero length
field and on a truncated TLV header (a nonempty buffer shorter than the
4-byte header) — but not on a length below the header size or on an
aligned advance overshooting the buffer, both of which it accepts with
a silently truncated payload slice; on a buffer that is a concatenation
of wellformed padded chunks the scan ends exactly at end-of-buffer,
yielding one (type id, payload) pair per TLV with the payload the slice
from offset+4 to offset+length. -/
theorem C4_splitter_amended :
    (∀ b0 b1 b2 b3 : Nat, ∀ rest : List Nat, readU16 b0 b1 = 0 →
      parse_generic_attributes (b0 :: b1 :: b2 :: b3 :: rest) = none) ∧
    (∀ data : List Nat, data ≠ [] → data.length < 4 →
      parse_generic_attributes data = none) ∧
    (∀ tl : List (Nat × List Nat), (∀ x ∈ tl, 4 + x.2.length < 65536 ∧ x.1 < 65536) →
      parse_generic_attributes ((tl.map (fun x => mkChunk x.1 x.2)).flatten) =
        some (tl.map (fun x => ⟨4 + x.2.length, x.1, x.2⟩))) := by
  refine ⟨?_, ?_, pga_chunks⟩
  · intro b0 b1 b2 b3 rest h0
    simp only [parse_generic_attributes]
    rw [dif_pos h0]
  · intro data hne hlen
    match data with
    | [] => exact absurd rfl hne
    | [a] => rw [parse_generic_attributes.eq_def]
    | [a, b] => rw [parse_generic_attributes.eq_def]
    | [a, b, c] => rw [parse_generic_attributes.eq_def]
    | a :: b :: c :: d :: r =>
      simp at hlen
      omega

/-- Witness for the amended C4 at concrete buffers. -/
theorem C4_witness :
    parse_generic_attributes [0, 0, 1, 0] = none ∧
    parse_generic_attributes [2, 0] = none ∧
    parse_generic_attributes (mkChunk 1 [5] ++ mkChunk 2 []) =
      some [⟨5, 1, [5]⟩, ⟨4, 2, []⟩] := by
  refine ⟨C4_splitter_amended.1 0 0 1 0 [] (by decide),
    C4_splitter_amended.2.1 [2, 0] (by decide) (by decide), ?_⟩
  have h := C4_splitter_amended.2.2 [(1, [5]), (2, [])] (by decide)
  simpa using h

/-- The scope's underscore-extended common prefix: the character-wise
common prefix of the sibling names, with an underscore appended when it
does not already end in one (the slicing length used by
`NlAttrSchema.from_spec`). -/
def extPfx (names : List String) : List Char :=
  if (commonPfx (names.map String.data)).getLast? = some '_' then
    commonPfx (names.map String.data)
  else commonPfx (names.map String.data) ++ ['_']

theorem derivedPythonName_strip (names : List String) (name : String) (sfx : List Char)
    (h : name.data = extPfx names ++ sfx) :
    derivedPythonName names name = String.mk (sfx.map pyLowerChar) := by
  have hp2 : (if (commonPfx (names.map String.data)).getLast? = some '_'
      then commonPfx (names.map String.data)
      else commonPfx (names.map String.data) ++ ['_']) = extPfx names := rfl
  simp only [derivedPythonName]
  rw [hp2, h, List.drop_left]

/-- C5 counterexample: the sibling names FOO and BAR have no common
prefix at all (so in particular none ending in an underscore), yet the
derived short name of FOO is "oo", not the full lowercase "foo": the
source appends an underscore to the empty common prefix and slices one
character off every name.  This refutes the claim's no-common-prefix
case. -/
theorem C5_counterexample :
    commonPfx (["FOO", "BAR"].map String.data) = [] ∧
    derivedPythonName ["FOO", "BAR"] "FOO" = "oo" ∧
    ("oo" : String) ≠ String.mk ("FOO".data.map pyLowerChar) := by
  refine ⟨by decide, by decide, by decide⟩

/-- C5 amended: for a child without an explicit override whose symbolic
name does extend the scope's underscore-extended common prefix, the
name map built by `NlAttrSchema.from_spec` contains the lowercase of
the symbolic name with that extended prefix stripped, mapped to the
symbolic name.  (When the extended prefix is not a prefix of the name —
e.g. when the names share no common prefix — the source still slices
its length off, which the counterexample shows.) -/
theorem C5_derived_name_strips (fields : List (String × Option String))
    (fname : String) (sfx : List Char)
    (hmem : (fname, (none : Option String)) ∈ fields)
    (hdec : fname.data = extPfx (fields.map (fun g => g.1)) ++ sfx) :
    (String.mk (sfx.map pyLowerChar), fname) ∈ fromSpecNameMapping fields := by
  simp only [fromSpecNameMapping]
  refine List.mem_map.mpr ⟨(fname, none), hmem, ?_⟩
  show (derivedPythonName (fields.map (fun g => g.1)) fname, fname) = _
  rw [derivedPythonName_strip _ _ _ hdec]

/-- Witness for the amended C5 on the scope FOO_A, FOO_B. -/
theorem C5_witness :
    ("FOO_A", (none : Option String)) ∈
      ([("FOO_A", none), ("FOO_B", none)] : List (String × Option String)) ∧
    "FOO_A".data =
      extPfx (([("FOO_A", none), ("FOO_B", none)] :
        List (String × Option String)).map (fun g => g.1)) ++ ['A'] ∧
    (String.mk (['A'].map pyLowerChar), "FOO_A") ∈
      fromSpecNameMapping [("FOO_A", none), ("FOO_B", none)] := by
  refine ⟨by simp, by decide, ?_⟩
  exact C5_derived_name_strips [("FOO_A", none), ("FOO_B", none)] "FOO_A" ['A']
    (by simp) (by decide)

theorem setBuildCore_loop {children : Fields} {ids : List (String × Nat)}
    {required : List String} {m : VMap} {b : List Nat}
    (h : setBuildCore children ids required m = some b) :
    setBuildLoop children ids m = some b := by
  simp only [setBuildCore] at h
  split at h
  · split at h
    · exact h
    · cases h
  · cases h

theorem build_loop {S : NlAttrSchema} {v : Option VMap} {kw : VMap} {b : List Nat}
    (h : S.build v kw = some b) :
    ∃ m, setBuildLoop S.subattr_schemata S.ids m = some b := by
  simp only [NlAttrSchema.build] at h
  split at h
  · cases h
  · split at h
    · split at h
      · exact ⟨_, setBuildCore_loop h⟩
      · cases h
    · split at h
      case h_1 => exact ⟨_, setBuildCore_loop h⟩
      case h_2 => cases h

/-- C6: every buffer produced by `NlAttrSchema.build` is the
concatenation of padded TLV chunks — each chunk `mkChunk t p` carrying
the length field `4 + len(payload)` (header size plus unaligned payload
length) and zero padding, not counted by the length field, up to the
next 4-byte boundary.  Each chunk's length is a multiple of 4, so every
TLV starts at a 4-byte-aligned offset, and splitting the buffer
recovers exactly the (length, type, payload) triples with
`length = 4 + len(payload)`. -/
theorem C6_tlv_layout (S : NlAttrSchema) (v : Option VMap) (kw : VMap) (b : List Nat)
    (hb : S.build v kw = some b) :
    ∃ tl : List (Nat × List Nat),
      b = (tl.map (fun x => mkChunk x.1 x.2)).flatten ∧
      (∀ x ∈ tl, (mkChunk x.1 x.2).length % 4 = 0) ∧
      parse_generic_attributes b = some (tl.map (fun x => ⟨4 + x.2.length, x.1, x.2⟩)) := by
  obtain ⟨m, hm⟩ := build_loop hb
  obtain ⟨tl, rfl, hbnd⟩ := setLoop_chunks _ _ _ _ hm
  exact ⟨tl, rfl, fun x hx => mkChunk_length_mod4 x.1 x.2 (hbnd x hx).1,
    pga_chunks tl hbnd⟩

/-- Witness for C6 at a concrete codec and value. -/
theorem C6_witness :
    sampleU8.build (some sampleU8Vals) VMap.nil = some [5, 0, 1, 0, 5, 0, 0, 0] ∧
    ∃ tl : List (Nat × List Nat),
      ([5, 0, 1, 0, 5, 0, 0, 0] : List Nat) = (tl.map (fun x => mkChunk x.1 x.2)).flatten ∧
      (∀ x ∈ tl, (mkChunk x.1 x.2).length % 4 = 0) ∧
      parse_generic_attributes [5, 0, 1, 0, 5, 0, 0, 0] =
        some (tl.map (fun x => ⟨4 + x.2.length, x.1, x.2⟩)) :=
  have h3 : sampleU8.build (some sampleU8Vals) VMap.nil = some [5, 0, 1, 0, 5, 0, 0, 0] := by
    simp [sampleU8, sampleU8Vals, NlAttrSchema.build, truthyOpt, truthyVMap, setBuildCore,
      setBuildLoop, buildAttr, intBuild, leBytes, packU16, pad, align, VMap.keys,
      Fields.lookup, idsLookup, IntKind.lo, IntKind.hi, IntKind.size]
  ⟨h3, C6_tlv_layout sampleU8 (some sampleU8Vals) VMap.nil _ h3⟩

/-- C7: a TLV whose type id matches no declared child of the scope is
skipped with a warning naming the candidate symbolic names mapped to
that id in the id table, and never causes parse to fail: whenever the
walk over the recognized TLVs alone succeeds (and the required names
are present), `NlAttrSchema.parse` of the full buffer succeeds with
exactly the recognized attributes as its value tree, and its warning
list contains the (id, candidates) pair of every unknown TLV. -/
theorem C7_unknown_skipped (S : NlAttrSchema) (data : List Nat)
    (attrs : List GNLAttribute) (vals : VMap) (warns : List Warn)
    (hpga : parse_generic_attributes data = some attrs)
    (hknown : setWalk S.subattr_schemata S.ids .nil
        (attrs.filter (knownAttr S.subattr_schemata S.ids)) = some (vals, warns))
    (hreq : S.required_attrs.all (fun r => (VMap.lookup vals r).isSome) = true) :
    ∃ warns2, S.parse data = some (addFlagDefaults S.subattr_schemata vals, warns2) ∧
      ∀ a ∈ attrs, knownAttr S.subattr_schemata S.ids a = false →
        (a.atype, candidates S.ids a.atype) ∈ warns2 := by
  obtain ⟨w2, hw2, hmem⟩ :=
    walk_skips_unknown attrs S.subattr_schemata S.ids .nil vals warns hknown
  refine ⟨w2, ?_, hmem⟩
  simp only [NlAttrSchema.parse]
  rw [hpga]
  simp only [Option.some_bind]
  rw [hw2]
  simp only [Option.some_bind]
  rw [if_pos hreq]

/-- Witness for C7: a buffer holding one recognized TLV (id 1) and one
unknown TLV (id 9). -/
theorem C7_witness :
    ∃ warns2,
      sampleU8.parse [5, 0, 1, 0, 7, 0, 0, 0, 4, 0, 9, 0] =
        some (addFlagDefaults sampleU8.subattr_schemata (.cons "A" (.vint 7) .nil),
          warns2) ∧
      ∀ a ∈ ([⟨5, 1, [7]⟩, ⟨4, 9, []⟩] : List GNLAttribute),
        knownAttr sampleU8.subattr_schemata sampleU8.ids a = false →
        (a.atype, candidates sampleU8.ids a.atype) ∈ warns2 := by
  refine C7_unknown_skipped sampleU8 _ [⟨5, 1, [7]⟩, ⟨4, 9, []⟩]
    (.cons "A" (.vint 7) .nil) [] ?_ ?_ ?_
  · simp [parse_generic_attributes, readU16, align]
  · simp [sampleU8, knownAttr, findChild, idsLookup, List.find?, List.filter, setWalk,
      parseAttr, intParse, fromLE, VMap.pyInsert, IntKind.size]
  · rfl

/-- C8: `NlAttrSchema.build` fails whenever the positional value
mapping and the short-name keyword values are both truthy or both
falsy (`bool(_attr_values) == bool(kwargs)`), and conversely it can
only succeed when exactly one of the two input forms is given. -/
theorem C8_exclusive_forms (S : NlAttrSchema) (av : Option VMap) (kw : VMap) :
    (truthyOpt av = truthyVMap kw → S.build av kw = none) ∧
    (∀ b, S.build av kw = some b → truthyOpt av ≠ truthyVMap kw) := by
  constructor
  · intro h
    simp only [NlAttrSchema.build]
    rw [if_pos (by simp [h])]
  · intro b hb h
    simp only [NlAttrSchema.build] at hb
    rw [if_pos (by simp [h])] at hb
    cases hb

/-- Witness for C8: neither form given. -/
theorem C8_witness : sampleU8.build (some VMap.nil) VMap.nil = none :=
  (C8_exclusive_forms sampleU8 (some VMap.nil) VMap.nil).1 rfl

/-- C9: for every integer codec kind, building a value outside the
representable range of the declared width and signedness is a hard
error, building an in-range value succeeds, and whatever `intBuild`
produces has exactly the declared width and parses back (host byte
order, i.e. little-endian here) to the original value. -/
theorem C9_int_codec (k : IntKind) (v : Int) :
    (¬(k.lo ≤ v ∧ v ≤ k.hi) → intBuild k v = none) ∧
    ((k.lo ≤ v ∧ v ≤ k.hi) → (intBuild k v).isSome = true) ∧
    (∀ p, intBuild k v = some p → p.length = k.size ∧ intParse k p = some v) := by
  refine ⟨?_, ?_, ?_⟩
  · intro h
    simp only [intBuild]
    rw [if_neg h]
  · intro h
    simp only [intBuild]
    rw [if_pos h]
    rfl
  · intro p hp
    have h := intBuild_parse hp
    exact ⟨h.2.1, h.1⟩

/-- Witness for C9 on the u16 codec. -/
theorem C9_witness :
    intBuild .u16 70000 = none ∧
    ([5, 0] : List Nat).length = IntKind.u16.size ∧ intParse .u16 [5, 0] = some 5 := by
  refine ⟨(C9_int_codec .u16 70000).1 (by decide), ?_, ?_⟩
  · exact ((C9_int_codec .u16 5).2.2 [5, 0] (by decide)).1
  · exact ((C9_int_codec .u16 5).2.2 [5, 0] (by decide)).2

/-- C10: the string codec's parse of an empty payload is an error (the
decoded text is empty, so the `s[-1]` NUL test raises IndexError)
rather than the empty string; an undecodable payload is also an error;
and for a non-empty payload that decodes, parse returns the decoded
text with one trailing NUL removed when present (and at most that
one character). -/
theorem C10_str_parse (bs : List Nat) (cs : List Char) :
    strParse [] = none ∧
    (pyDecode bs = none → strParse bs = none) ∧
    (bs ≠ [] → pyDecode bs = some cs →
      strParse bs = some (String.mk
        (if cs.getLast? = some (Char.ofNat 0) then cs.dropLast else cs))) := by
  refine ⟨?_, ?_, ?_⟩
  · simp [strParse, pyDecode]
  · intro h
    simp only [strParse]
    rw [h]
  · intro hne hdec
    have hcs := pyDecode_nonempty hne hdec
    simp only [strParse]
    rw [hdec]
    show (match cs.getLast? with
          | none => none
          | some c => some (String.mk (if c = Char.ofNat 0 then cs.dropLast else cs))) =
      some (String.mk (if cs.getLast? = some (Char.ofNat 0) then cs.dropLast else cs))
    cases hlast : cs.getLast? with
    | none =>
      exact absurd (by simpa using hlast) hcs
    | some c =>
      show some (String.mk (if c = Char.ofNat 0 then cs.dropLast else cs)) =
        some (String.mk (if some c = some (Char.ofNat 0) then cs.dropLast else cs))
      by_cases hc : c = Char.ofNat 0
      · rw [if_pos hc, if_pos (by rw [hc])]
      · rw [if_neg hc, if_neg (by intro h2; exact hc (by injection h2))]

/-- Witness for C10 at the single-NUL payload. -/
theorem C10_witness :
    ([0] : List Nat) ≠ [] ∧ pyDecode [0] = some [Char.ofNat 0] ∧
    strParse [0] = some (String.mk []) := by
  have hdec : pyDecode [0] = some [Char.ofNat 0] := by
    simp [pyDecode, pyDecodeStep]
  refine ⟨by decide, hdec, ?_⟩
  have h := (C10_str_parse [0] [Char.ofNat 0]).2.2 (by decide) hdec
  simpa using h

end Genl
